import Mathlib

/-!
# Verification of the framework-comparison and criteria-normalization engine

Shallow embedding of the comparison/normalization core of the web-seminer
repository (`frameworks/views.py`, `frameworks/llm_comparison.py`,
`frameworks/management/commands/cleanup_duplicates.py`).

Strings are modelled as lists of character codes (`List Nat`); Python string
operations (`strip`, `lower`, `upper`, `split`, `join`, `in`, `isdigit`) are
embedded as functions over those lists, restricted to the ASCII behaviour the
stored data exercises.
-/


/-! ### Definitions -/

/-- A Python string, as its list of character codes. -/
abbrev Str := List Nat

/-- Character codes of a Lean string literal (used to write concrete inputs). -/
def strCodes (s : String) : Str := s.data.map (fun c => c.toNat)

/-- Python whitespace (the ASCII characters `str.split`/`str.strip` treat as
whitespace: space, tab, newline, carriage return, vertical tab, form feed). -/
def isWS (c : Nat) : Bool :=
  decide (c = 32 ∨ c = 9 ∨ c = 10 ∨ c = 13 ∨ c = 11 ∨ c = 12)

/-- `str.lower` on one character code (ASCII). -/
def pyLower (c : Nat) : Nat := if 65 ≤ c ∧ c ≤ 90 then c + 32 else c

/-- `str.upper` on one character code (ASCII). -/
def pyUpper (c : Nat) : Nat := if 97 ≤ c ∧ c ≤ 122 then c - 32 else c

/-- `s.lower()`. -/
def lowerStr (s : Str) : Str := s.map pyLower

/-- `s.strip()`: drop leading and trailing whitespace. -/
def pyStrip (s : Str) : Str :=
  ((s.dropWhile isWS).reverse.dropWhile isWS).reverse

/-- Worker for `str.split()`: `acc` holds the (reversed) current word. -/
def splitWSAux : List Nat → List Nat → List (List Nat)
  | [], acc => if acc = [] then [] else [acc.reverse]
  | c :: cs, acc =>
    if isWS c then
      if acc = [] then splitWSAux cs [] else acc.reverse :: splitWSAux cs []
    else splitWSAux cs (c :: acc)

/-- `s.split()`: maximal whitespace-free runs, empty runs discarded. -/
def splitWS (s : Str) : List Str := splitWSAux s []

/-- `' '.join(ws)`. -/
def joinWords : List Str → Str
  | [] => []
  | [w] => w
  | w :: ws => w ++ 32 :: joinWords ws

/-- `Command.normalize_name` of `cleanup_duplicates.py` (the spec's
`normalize_loose`): `'' if not name else ' '.join(name.lower().strip().split())`. -/
def normalize_name (s : Str) : Str :=
  if s = [] then [] else joinWords (splitWS (pyStrip (lowerStr s)))

/-- The spec's "capitalize only the first character, rest unchanged". -/
def capFirst : Str → Str
  | [] => []
  | c :: cs => pyUpper c :: cs

/-- `Command.normalize_criterion_name` of `cleanup_duplicates.py`:
trim and collapse whitespace, then `n[0].upper() + n[1:]` when `len(n) > 1`,
else `n.upper()`. -/
def normalize_criterion_name (s : Str) : Str :=
  if s = [] then []
  else
    let n := joinWords (splitWS (pyStrip s))
    if n = [] then n
    else if 1 < n.length then
      match n with
      | [] => []
      | c :: cs => pyUpper c :: cs
    else n.map pyUpper

/-! ## Lexicographic string comparison (Python string `<=`) -/
def lexLeB : List Nat → List Nat → Bool
  | [], _ => true
  | _ :: _, [] => false
  | a :: as, b :: bs => if a < b then true else if b < a then false else lexLeB as bs

def lexLeB_total (a b : List Nat) : lexLeB a b = true ∨ lexLeB b a = true := by
  induction a generalizing b with
  | nil => left; rfl
  | cons x xs ih =>
    cases b with
    | nil => right; rfl
    | cons y ys =>
      unfold lexLeB
      by_cases hxy : x < y
      · left
        simp [hxy]
      · by_cases hyx : y < x
        · right
          simp [hyx]
        · have hxx : ¬ x < y := hxy
          simp [hxy, hyx]
          exact ih ys

def lexLeB_trans (a b c : List Nat)
    (h1 : lexLeB a b = true) (h2 : lexLeB b c = true) : lexLeB a c = true := by
  induction a generalizing b c with
  | nil => rfl
  | cons x xs ih =>
    cases b with
    | nil => simp [lexLeB] at h1
    | cons y ys =>
      cases c with
      | nil => simp [lexLeB] at h2
      | cons z zs =>
        unfold lexLeB at h1 h2 ⊢
        by_cases hxy : x < y
        · by_cases hyz : y < z
          · simp [show x < z by omega]
          · by_cases hzy : z < y
            · simp [hyz, hzy] at h2
            · simp [show x < z by omega]
        · by_cases hyx : y < x
          · simp [hxy, hyx] at h1
          · simp only [hxy, hyx, if_false] at h1
            by_cases hyz : y < z
            · simp [show x < z by omega]
            · by_cases hzy : z < y
              · simp [hyz, hzy] at h2
              · simp only [hyz, hzy, if_false] at h2
                have hxz : ¬ x < z := by omega
                have hzx : ¬ z < x := by omega
                simp only [hxz, hzx, if_false]
                exact ih ys zs h1 h2

/-- Key order used by `sorted(criteria_names_list, key=lambda x: x.lower())`. -/
def caseKeyLe (a b : Str) : Prop := lexLeB (lowerStr a) (lowerStr b) = true

instance : DecidableRel caseKeyLe :=
  fun a b => (inferInstance : Decidable (lexLeB (lowerStr a) (lowerStr b) = true))

instance : IsTotal Str caseKeyLe := ⟨fun a b => lexLeB_total (lowerStr a) (lowerStr b)⟩

instance : IsTrans Str caseKeyLe :=
  ⟨fun a b c => lexLeB_trans (lowerStr a) (lowerStr b) (lowerStr c)⟩

/-! ## Criterion Registry (`compare_frameworks`, views.py lines 129-141)

The view iterates over the distinct stored criterion names; for each it takes
`normalized = name.strip() if name else ''`, skips falsy results, dedups on
`normalized.lower()` keeping the first-seen stripped variant, and finally
sorts with `key=lambda x: x.lower()`. -/
def dedupNormNames : List Str → List Str → List Str
  | [], _ => []
  | n :: ns, seen =>
    let norm := pyStrip n
    if norm = [] then dedupNormNames ns seen
    else if lowerStr norm ∈ seen then dedupNormNames ns seen
    else norm :: dedupNormNames ns (lowerStr norm :: seen)

/-- `sorted(criteria_names_list, key=lambda x: x.lower())` (a stable sort). -/
def sortCaseInsensitive (l : List Str) : List Str := List.insertionSort caseKeyLe l

/-- The final `criteria_names` list of `compare_frameworks`. -/
def criteriaNames (allCriteria : List Str) : List Str :=
  sortCaseInsensitive (dedupNormNames allCriteria [])

/-- A `Definition` row. -/
structure DefinitionR where
  definition_text : Str
  notes : Str
deriving DecidableEq

/-- A `Criterion` row (its `definitions` in stored order). -/
structure Criterion where
  name : Str
  description : Str
  category : Str
  definitions : List DefinitionR
deriving DecidableEq

/-- A `Framework` row (its `criteria` in stored order). -/
structure Framework where
  id : Nat
  name : Str
  year : Option Int
  criteria : List Criterion
deriving DecidableEq

/-- One cell of the comparison matrix (a `framework_data` dict of views.py;
the two optional fields model the keys that only the LLM-enhancement merge
step may add). -/
structure Cell where
  has_criterion : Bool
  description : Str
  category : Str
  definitions : List Str
  llm_description : Option Str
  has_llm_enhancement : Option Bool
deriving DecidableEq

/-- One row of `comparison_data`. -/
structure Row where
  name : Str
  framework_data : List Cell
deriving DecidableEq

/-- One entry of the `differences` list. -/
structure DiffEntry where
  criterion : Str
  in_frameworks : Nat
  total : Nat
deriving DecidableEq

/-- Output of the comparison-building part of `compare_frameworks`. -/
structure ComparisonResult where
  selected : List Framework
  comparison_data : List Row
  similarities : List Str
  differences : List DiffEntry
deriving DecidableEq

/-! ## Framework display order: `order_by('-year', 'name')`
(year descending, absent years last as under SQLite, then name ascending) -/
def fwLe (f g : Framework) : Bool :=
  match f.year, g.year with
  | some a, some b => if a = b then lexLeB f.name g.name else decide (b < a)
  | some _, none => true
  | none, some _ => false
  | none, none => lexLeB f.name g.name

def fwDisplayLe (f g : Framework) : Prop := fwLe f g = true

instance : DecidableRel fwDisplayLe :=
  fun f g => (inferInstance : Decidable (fwLe f g = true))

/-- `Framework.objects.filter(id__in=framework_ids).order_by('-year', 'name')`. -/
def selectFrameworks (db : List Framework) (ids : List Nat) : List Framework :=
  List.insertionSort fwDisplayLe (db.filter (fun fw => decide (fw.id ∈ ids)))

/-- First-occurrence exact dedup, modelling `.values_list('name').distinct()`. -/
def dedupFirstAux : List Str → List Str → List Str
  | [], _ => []
  | x :: xs, seen =>
    if x ∈ seen then dedupFirstAux xs seen else x :: dedupFirstAux xs (x :: seen)

def dedupFirst (l : List Str) : List Str := dedupFirstAux l []

/-- `Criterion.objects.filter(framework_id__in=framework_ids)
.values_list('name', flat=True).distinct()`. -/
def allCriteriaNames (db : List Framework) (ids : List Nat) : List Str :=
  dedupFirst (((db.filter (fun fw => decide (fw.id ∈ ids))).map
    (fun fw => fw.criteria.map (fun c => c.name))).flatten)

/-- `name__iexact=criterion_name`: case-insensitive exact match. -/
def criterionMatch (nm : Str) (c : Criterion) : Bool := lowerStr c.name == lowerStr nm

/-- Per-cell definition dedup of views.py lines 163-172: strip, skip falsy,
dedup on the lowercased text, first occurrence wins. -/
def dedupDefsAux : List DefinitionR → List Str → List Str
  | [], _ => []
  | d :: ds, seen =>
    let t := pyStrip d.definition_text
    if t = [] then dedupDefsAux ds seen
    else if lowerStr t ∈ seen then dedupDefsAux ds seen
    else t :: dedupDefsAux ds (lowerStr t :: seen)

def dedupDefinitions (defs : List DefinitionR) : List Str := dedupDefsAux defs []

/-- One matrix cell: `.filter(framework=framework, name__iexact=...).first()`,
present cells carry description/category/deduped definitions, a missing match
yields `has_criterion: False` (views.py lines 156-183). -/
def cellFor (fw : Framework) (nm : Str) : Cell :=
  match fw.criteria.find? (criterionMatch nm) with
  | some c =>
    { has_criterion := true, description := c.description, category := c.category,
      definitions := dedupDefinitions c.definitions, llm_description := none,
      has_llm_enhancement := none }
  | none =>
    { has_criterion := false, description := [], category := [], definitions := [],
      llm_description := none, has_llm_enhancement := none }

/-- The matrix loop of views.py lines 144-188, including its (never-firing)
`seen_criteria` guard keyed on `criterion_name.lower().strip()`. -/
def buildRowsAux : List Str → List Framework → List Str → List Row
  | [], _, _ => []
  | n :: ns, fws, seen =>
    let key := pyStrip (lowerStr n)
    if key ∈ seen then buildRowsAux ns fws seen
    else { name := n, framework_data := fws.map (fun fw => cellFor fw n) }
      :: buildRowsAux ns fws (key :: seen)

def buildRows (names : List Str) (fws : List Framework) : List Row :=
  buildRowsAux names fws []

/-- `Criterion.objects.filter(framework__in=selected, name__iexact=nm)
.values_list('framework_id').distinct().count()`. -/
def presenceCount (selected : List Framework) (nm : Str) : Nat :=
  (((selected.filter (fun fw => fw.criteria.any (criterionMatch nm))).map
    (fun fw => fw.id)).dedup).length

/-- The similarities/differences loop body (views.py lines 217-231). -/
def classifyAux (selected : List Framework) : List Str → List Str × List DiffEntry
  | [] => ([], [])
  | n :: ns =>
    let rest := classifyAux selected ns
    let c := presenceCount selected n
    if c = selected.length then (n :: rest.1, rest.2)
    else if 0 < c then
      (rest.1, { criterion := n, in_frameworks := c, total := selected.length } :: rest.2)
    else rest

/-- Classification is attempted only when more than one framework is selected. -/
def classify (selected : List Framework) (names : List Str) :
    List Str × List DiffEntry :=
  if 1 < selected.length then classifyAux selected names else ([], [])

/-- The comparison-building portion of `compare_frameworks` given the parsed
framework ids. -/
def buildComparison (db : List Framework) (ids : List Nat) : ComparisonResult :=
  { selected := selectFrameworks db ids,
    comparison_data := buildRows (criteriaNames (allCriteriaNames db ids))
      (selectFrameworks db ids),
    similarities := (classify (selectFrameworks db ids)
      (criteriaNames (allCriteriaNames db ids))).1,
    differences := (classify (selectFrameworks db ids)
      (criteriaNames (allCriteriaNames db ids))).2 }

/-- Python `fid.isdigit()` (ASCII digits; empty string is not a digit string). -/
def isDigitStr (s : Str) : Bool := !s.isEmpty && s.all (fun c => decide (48 ≤ c ∧ c ≤ 57))

/-- `int(fid)` for a digit string. -/
def parseDec (s : Str) : Nat := s.foldl (fun a c => a * 10 + (c - 48)) 0

/-- `[int(fid) for fid in framework_ids if fid.isdigit()]`. -/
def parseIds (raw : List Str) : List Nat := (raw.filter isDigitStr).map parseDec

/-- `compare_frameworks` at view level: `none` models the early-return paths
that render the selection page without any comparison (no GET ids, or no id
survived the digit filter). -/
def compare_frameworks (db : List Framework) (raw : List Str) :
    Option ComparisonResult :=
  if raw = [] then none
  else if parseIds raw = [] then none
  else some (buildComparison db (parseIds raw))

def fwLe_eq_some_some {f g : Framework} {a b : Int}
    (hf : f.year = some a) (hg : g.year = some b) :
    fwLe f g = if a = b then lexLeB f.name g.name else decide (b < a) := by
  unfold fwLe
  rw [hf, hg]

def fwLe_eq_some_none {f g : Framework} {a : Int}
    (hf : f.year = some a) (hg : g.year = none) : fwLe f g = true := by
  unfold fwLe
  rw [hf, hg]

def fwLe_eq_none_some {f g : Framework} {b : Int}
    (hf : f.year = none) (hg : g.year = some b) : fwLe f g = false := by
  unfold fwLe
  rw [hf, hg]

def fwLe_eq_none_none {f g : Framework}
    (hf : f.year = none) (hg : g.year = none) : fwLe f g = lexLeB f.name g.name := by
  unfold fwLe
  rw [hf, hg]

def fwLe_total (f g : Framework) : fwLe f g = true ∨ fwLe g f = true := by
  cases hf : f.year with
  | none =>
    cases hg : g.year with
    | none =>
      rw [fwLe_eq_none_none hf hg, fwLe_eq_none_none hg hf]
      exact lexLeB_total _ _
    | some b =>
      right
      rw [fwLe_eq_some_none hg hf]
  | some a =>
    cases hg : g.year with
    | none =>
      left
      rw [fwLe_eq_some_none hf hg]
    | some b =>
      rw [fwLe_eq_some_some hf hg, fwLe_eq_some_some hg hf]
      by_cases hab : a = b
      · subst hab
        rw [if_pos rfl, if_pos rfl]
        exact lexLeB_total _ _
      · have hba : b ≠ a := fun h => hab h.symm
        rw [if_neg hab, if_neg hba]
        rcases Int.lt_or_lt_of_ne hab with h | h
        · right
          simpa using h
        · left
          simpa using h

def fwLe_trans (f g h : Framework)
    (h1 : fwLe f g = true) (h2 : fwLe g h = true) : fwLe f h = true := by
  cases hf : f.year with
  | none =>
    cases hg : g.year with
    | none =>
      cases hh : h.year with
      | none =>
        rw [fwLe_eq_none_none hf hg] at h1
        rw [fwLe_eq_none_none hg hh] at h2
        rw [fwLe_eq_none_none hf hh]
        exact lexLeB_trans _ _ _ h1 h2
      | some c =>
        rw [fwLe_eq_none_some hg hh] at h2
        exact absurd h2 (by simp)
    | some b =>
      rw [fwLe_eq_none_some hf hg] at h1
      exact absurd h1 (by simp)
  | some a =>
    cases hh : h.year with
    | none => rw [fwLe_eq_some_none hf hh]
    | some c =>
      cases hg : g.year with
      | none =>
        rw [fwLe_eq_none_some hg hh] at h2
        exact absurd h2 (by simp)
      | some b =>
        rw [fwLe_eq_some_some hf hg] at h1
        rw [fwLe_eq_some_some hg hh] at h2
        rw [fwLe_eq_some_some hf hh]
        by_cases hab : a = b
        · subst hab
          rw [if_pos rfl] at h1
          by_cases hbc : a = c
          · subst hbc
            rw [if_pos rfl] at h2
            rw [if_pos rfl]
            exact lexLeB_trans _ _ _ h1 h2
          · rw [if_neg hbc] at h2
            rw [if_neg hbc]
            exact h2
        · rw [if_neg hab] at h1
          by_cases hbc : b = c
          · subst hbc
            rw [if_neg hab]
            exact h1
          · rw [if_neg hbc] at h2
            have hlt1 : b < a := by simpa using h1
            have hlt2 : c < b := by simpa using h2
            have hac : a ≠ c := by omega
            rw [if_neg hac]
            simp only [decide_eq_true_eq]
            omega

instance : IsTotal Framework fwDisplayLe := ⟨fun f g => fwLe_total f g⟩

instance : IsTrans Framework fwDisplayLe := ⟨fun f g h => fwLe_trans f g h⟩

def whitespaceNameDb : List Framework :=
  [{ id := 1, name := strCodes "A", year := some 2020,
     criteria := [{ name := strCodes " Accuracy ", description := [],
                    category := [], definitions := [] }] },
   { id := 2, name := strCodes "B", year := some 2019,
     criteria := [{ name := strCodes "Beta", description := [],
                    category := [], definitions := [] }] }]

def cleanDb : List Framework :=
  [{ id := 1, name := strCodes "A", year := some 2019,
     criteria := [{ name := strCodes "Completeness", description := strCodes "X",
                    category := [], definitions := [] },
                  { name := strCodes "Accuracy", description := strCodes "Y",
                    category := [], definitions := [] }] },
   { id := 2, name := strCodes "B", year := some 2021,
     criteria := [{ name := strCodes "completeness", description := strCodes "Z",
                    category := [], definitions := [] }] }]

/-- `s.startswith(p)` on code lists. -/
def listStarts : List Nat → List Nat → Bool
  | [], _ => true
  | _ :: _, [] => false
  | a :: as, b :: bs => (a == b) && listStarts as bs

/-- Python `p in s`: `p` occurs contiguously in `s`. -/
def containsSub (p : List Nat) : List Nat → Bool
  | [] => p.isEmpty
  | c :: t => listStarts p (c :: t) || containsSub p t

/-- The nested-if removal test of lines 257-261: one normalized text inside
the other, length gap below 20, and this one strictly shorter (the longer
survives). -/
def nearRemoveCond (a b : Str) : Bool :=
  (containsSub a b || containsSub b a)
  && decide ((a.length - b.length) + (b.length - a.length) < 20)
  && decide (a.length < b.length)

/-- `definition` at index `i` is removed by the near-duplicate scan against
some other definition (`other_def != definition` is object identity, i.e. a
different index). -/
def removedByNear (norms : List Str) (i : Nat) : Bool :=
  (List.range norms.length).any (fun j =>
    decide (j ≠ i) && nearRemoveCond (norms.getD i []) (norms.getD j []))

/-- The full removal test: a normalized text already seen at an earlier index
(the `seen_normalized` set), or the near-duplicate scan. -/
def defRemoved (norms : List Str) (i : Nat) : Bool :=
  if norms.getD i [] ∈ norms.take i then true
  else removedByNear norms i

/-- `cleanup_duplicate_definitions` for one criterion, modelled by the list
of surviving `definition_text`s (the source deletes `duplicates_to_remove`
from storage). -/
def cleanup_duplicate_definitions (defs : List Str) : List Str :=
  (List.range defs.length).filterMap
    (fun i => if defRemoved (defs.map normalize_name) i then none
              else some (defs.getD i []))

/-- The spec's near-duplicate relation on normalized definition texts. -/
def nearDupRel (a b : Str) : Prop :=
  a = b ∨ ((containsSub a b = true ∨ containsSub b a = true)
    ∧ (a.length - b.length) + (b.length - a.length) < 20)

instance (a b : Str) : Decidable (nearDupRel a b) := by
  unfold nearDupRel
  infer_instance

/-! ## LLM Enhancement Orchestrator (`enhance_comparison_with_llm`)

The engine is a record of deterministic fallible operations: `Except.error`
models a raised exception, an `.ok` empty string models a falsy result
(the code tests `if enhanced_desc:` etc.).  Engine construction
(`LLMComparisonEngine()`) is the one call whose exception escapes to the
function's top-level `try/except`; every later provider call sits inside an
inner `try/except` of its own. -/
structure Engine where
  provider : Str
  genDesc : Str → Nat → Cell → Except Str Str
  genSummary : Str → List Cell → Except Str Str
  genInsightMulti : Str → List Cell → Except Str Str
  genInsightUnique : Str → List Cell → Except Str Str
  findSims : List Row → Except Str (List (Str × List Str))
  groupCriteria : List Row → Except Str (List (Str × List Str))
  overallInsights : List Row → Except Str Str

/-- The dict returned by `enhance_comparison_with_llm` (absent keys of the
early-return dicts are modelled as `none`/empty). -/
structure EnhanceResult where
  enhanced : Bool
  comparison_data : List Row
  semantic_similarities : List (Str × List Str)
  summaries : Str → Option Str
  insights : Str → Option Str
  overall_insights : Option Str
  groups : List (Str × List Str)
  provider : Option Str
  error : Option Str

def noneStr : Str := strCodes "none"

def emptyMap : Str → Option Str := fun _ => none

/-- Python dict assignment `m[k] = v`. -/
def updateMap (m : Str → Option Str) (k : Str) (v : Str) : Str → Option Str :=
  fun q => if q = k then some v else m q

/-- Decimal digit codes of `n`, least significant first. -/
def natDigitsRev (n : Nat) : List Nat :=
  if n < 10 then [48 + n] else (48 + n % 10) :: natDigitsRev (n / 10)
decreasing_by exact Nat.div_lt_self (by omega) (by omega)

/-- `str(n)` as digit codes. -/
def natDigits (n : Nat) : Str := (natDigitsRev n).reverse

/-- The dict key `f"{criterion_name}__{fw_idx}"`. -/
def descKey (nm : Str) (i : Nat) : Str := nm ++ [95, 95] ++ natDigits i

/-- Default cell (used only as `getD` fallback in statements). -/
def defaultCell : Cell :=
  { has_criterion := false, description := [], category := [], definitions := [],
    llm_description := none, has_llm_enhancement := none }

/-- Result of one iteration of the per-cell rewrite loop (lines 1170-1192):
the call happens only for a present cell with `fw_idx < len(selected)`; an
exception or an empty result stores nothing. -/
def cellDesc (eng : Engine) (numFw : Nat) (nm : Str) (i : Nat) (cell : Cell) :
    Option Str :=
  if cell.has_criterion && decide (i < numFw) then
    match eng.genDesc nm i cell with
    | Except.ok d => if d = [] then none else some d
    | Except.error _ => none
  else none

/-- The `(key, value)` assignments made to `enhanced_descriptions` by one
row, in loop order. -/
def collectCells (eng : Engine) (numFw : Nat) (nm : Str) :
    List Cell → Nat → List (Str × Str)
  | [], _ => []
  | cell :: rest, i =>
    (match cellDesc eng numFw nm i cell with
     | some d => [(descKey nm i, d)]
     | none => []) ++ collectCells eng numFw nm rest (i + 1)

/-- All assignments made to `enhanced_descriptions`, in loop order. -/
def collectDescs (eng : Engine) (numFw : Nat) (data : List Row) :
    List (Str × Str) :=
  (data.map (fun row => collectCells eng numFw row.name row.framework_data 0)).flatten

/-- The dict built from an assignment list: a lookup returns the value of
the last assignment to the key. -/
def dictOf (l : List (Str × Str)) : Str → Option Str :=
  fun k => (l.reverse.find? (fun p => p.1 == k)).map (fun p => p.2)

/-- Number of `has_criterion` cells of a row. -/
def presentCountRow (row : Row) : Nat :=
  (row.framework_data.filter (fun c => c.has_criterion)).length

/-- `criteria_to_summarize` (line 1197): rows present in ≥ 2 frameworks. -/
def criteriaToSummarize (data : List Row) : List Row :=
  data.filter (fun r => decide (2 ≤ presentCountRow r))

/-- `unique_criteria` (line 1223): rows present in exactly one framework. -/
def uniqueCriteria (data : List Row) : List Row :=
  data.filter (fun r => decide (presentCountRow r = 1))

/-- `unique_criteria[:10]` (line 1227). -/
def uniqueTargets (data : List Row) : List Row := (uniqueCriteria data).take 10

/-- One iteration of the summaries loop (lines 1201-1219): the `try` block
wraps both the summary call and the follow-up insight call; an exception in
either skips the rest of the iteration but keeps what was already stored. -/
def addSummaryRow (eng : Engine) (row : Row)
    (ms mi : Str → Option Str) : (Str → Option Str) × (Str → Option Str) :=
  match eng.genSummary row.name row.framework_data with
  | Except.error _ => (ms, mi)
  | Except.ok s =>
    let ms2 := if s = [] then ms else updateMap ms row.name s
    match eng.genInsightMulti row.name row.framework_data with
    | Except.error _ => (ms2, mi)
    | Except.ok ins => (ms2, if ins = [] then mi else updateMap mi row.name ins)

def summariesFold (eng : Engine) :
    List Row → (Str → Option Str) → (Str → Option Str) →
    (Str → Option Str) × (Str → Option Str)
  | [], ms, mi => (ms, mi)
  | r :: rs, ms, mi =>
    summariesFold eng rs (addSummaryRow eng r ms mi).1 (addSummaryRow eng r ms mi).2

/-- One iteration of the unique-criteria insight loop (lines 1227-1238). -/
def addUniqueRow (eng : Engine) (row : Row) (mi : Str → Option Str) :
    Str → Option Str :=
  match eng.genInsightUnique row.name row.framework_data with
  | Except.error _ => mi
  | Except.ok ins => if ins = [] then mi else updateMap mi row.name ins

def uniqueFold (eng : Engine) : List Row → (Str → Option Str) → (Str → Option Str)
  | [], mi => mi
  | r :: rs, mi => uniqueFold eng rs (addUniqueRow eng r mi)

/-- The merge step of lines 1277-1288 for one cell: the copied dict gets
`llm_description` and `has_llm_enhancement: True` iff the key is in
`enhanced_descriptions`, else `has_llm_enhancement: False`. -/
def mergeOne (o : Option Str) (cell : Cell) : Cell :=
  match o with
  | some d => { cell with llm_description := some d, has_llm_enhancement := some true }
  | none => { cell with has_llm_enhancement := some false }

def mergeCells (m : Str → Option Str) (nm : Str) : List Cell → Nat → List Cell
  | [], _ => []
  | cell :: rest, i => mergeOne (m (descKey nm i)) cell :: mergeCells m nm rest (i + 1)

/-- The merge step of lines 1271-1292 for one row (`criterion.copy()` keeps
the name, `framework_data` is rebuilt cell by cell). -/
def mergeRow (m : Str → Option Str) (row : Row) : Row :=
  { name := row.name, framework_data := mergeCells m row.name row.framework_data 0 }

/-- `enhance_comparison_with_llm(comparison_data, selected_frameworks)`:
engine construction may raise (caught by the top-level `except`, line 1305);
`provider == 'none'` short-circuits (line 1127); otherwise every sub-step is
individually guarded and the call returns `enhanced: True`. -/
def enhance_comparison_with_llm (mkEngine : Except Str Engine)
    (data : List Row) (numFw : Nat) : EnhanceResult :=
  match mkEngine with
  | Except.error e =>
    { enhanced := false, comparison_data := data, semantic_similarities := [],
      summaries := emptyMap, insights := emptyMap, overall_insights := none,
      groups := [], provider := none, error := some e }
  | Except.ok eng =>
    if eng.provider = noneStr then
      { enhanced := false, comparison_data := data, semantic_similarities := [],
        summaries := emptyMap, insights := emptyMap, overall_insights := none,
        groups := [], provider := none, error := none }
    else
      { enhanced := true,
        comparison_data :=
          data.map (mergeRow (dictOf (collectDescs eng numFw data))),
        semantic_similarities :=
          match eng.findSims data with
          | Except.ok s => s
          | Except.error _ => [],
        summaries := (summariesFold eng (criteriaToSummarize data) emptyMap emptyMap).1,
        insights := uniqueFold eng (uniqueTargets data)
          (summariesFold eng (criteriaToSummarize data) emptyMap emptyMap).2,
        overall_insights :=
          match eng.overallInsights data with
          | Except.ok s => if s = [] then none else some s
          | Except.error _ => none,
        groups :=
          match eng.groupCriteria data with
          | Except.ok g => g
          | Except.error _ => [],
        provider := some eng.provider,
        error := none }

def noneEngine : Engine :=
  { provider := noneStr,
    genDesc := fun _ _ _ => Except.error [],
    genSummary := fun _ _ => Except.error [],
    genInsightMulti := fun _ _ => Except.error [],
    genInsightUnique := fun _ _ => Except.error [],
    findSims := fun _ => Except.error [],
    groupCriteria := fun _ => Except.error [],
    overallInsights := fun _ => Except.error [] }

def valRev : List Nat → Nat
  | [] => 0
  | d :: ds => (d - 48) + 10 * valRev ds

def presentCellX : Cell :=
  { has_criterion := true, description := strCodes "base", category := [],
    definitions := [], llm_description := none, has_llm_enhancement := none }

def testEngine : Engine :=
  { provider := strCodes "huggingface",
    genDesc := fun _ i _ =>
      if i = 0 then Except.ok (strCodes "richer text")
      else Except.error (strCodes "boom"),
    genSummary := fun _ _ => Except.ok (strCodes "sum"),
    genInsightMulti := fun _ _ => Except.ok [],
    genInsightUnique := fun _ _ => Except.ok (strCodes "uniq"),
    findSims := fun _ => Except.ok [],
    groupCriteria := fun _ => Except.ok [],
    overallInsights := fun _ => Except.ok [] }

def testData : List Row :=
  [{ name := strCodes "Accuracy", framework_data := [presentCellX, presentCellX] }]

/-! ### Theorems -/

/-! ## Character-level lemmas -/
theorem pyLower_pyLower (c : Nat) : pyLower (pyLower c) = pyLower c := by
  unfold pyLower
  split
  · split <;> omega
  · rfl

theorem pyUpper_pyUpper (c : Nat) : pyUpper (pyUpper c) = pyUpper c := by
  unfold pyUpper
  split
  · split <;> omega
  · rfl

theorem isWS_pyLower (c : Nat) : isWS (pyLower c) = isWS c := by
  unfold pyLower
  split
  · exact decide_eq_decide.mpr (by omega)
  · rfl

theorem isWS_pyUpper (c : Nat) : isWS (pyUpper c) = isWS c := by
  unfold pyUpper
  split
  · exact decide_eq_decide.mpr (by omega)
  · rfl

theorem pyLower_space : pyLower 32 = 32 := by decide

theorem lowerStr_lowerStr (s : Str) : lowerStr (lowerStr s) = lowerStr s := by
  unfold lowerStr
  rw [List.map_map]
  exact List.map_congr_left (fun c _ => pyLower_pyLower c)

/-! ## `split` / `join` / `strip` lemmas -/
theorem splitWSAux_words (s : List Nat) :
    ∀ acc, (∀ c ∈ acc, isWS c = false) →
      ∀ w ∈ splitWSAux s acc, w ≠ [] ∧ ∀ c ∈ w, isWS c = false := by
  induction s with
  | nil =>
    intro acc hacc w hw
    unfold splitWSAux at hw
    by_cases h : acc = []
    · simp [h] at hw
    · simp [h] at hw
      subst hw
      refine ⟨by simpa using h, fun c hc => hacc c (by simpa using hc)⟩
  | cons c cs ih =>
    intro acc hacc w hw
    unfold splitWSAux at hw
    by_cases hws : isWS c
    · simp [hws] at hw
      by_cases h : acc = []
      · simp [h] at hw
        exact ih [] (by simp) w hw
      · simp [h] at hw
        rcases hw with hw | hw
        · subst hw
          refine ⟨by simpa using h, fun d hd => hacc d (by simpa using hd)⟩
        · exact ih [] (by simp) w hw
    · simp [hws] at hw
      refine ih (c :: acc) ?_ w hw
      intro d hd
      rcases List.mem_cons.mp hd with rfl | hd
      · simpa using hws
      · exact hacc d hd

theorem splitWSAux_all_ws (t : List Nat) :
    ∀ acc, (∀ c ∈ t, isWS c = true) →
      splitWSAux t acc = if acc = [] then [] else [acc.reverse] := by
  induction t with
  | nil => intro acc _; rfl
  | cons c cs ih =>
    intro acc ht
    have hc : isWS c = true := ht c (by simp)
    unfold splitWSAux
    simp only [hc, if_true]
    by_cases h : acc = []
    · simp [h, ih [] (fun d hd => ht d (List.mem_cons_of_mem _ hd))]
    · simp [h, ih [] (fun d hd => ht d (List.mem_cons_of_mem _ hd))]

theorem splitWSAux_append_ws (s t : List Nat) (ht : ∀ c ∈ t, isWS c = true) :
    ∀ acc, splitWSAux (s ++ t) acc = splitWSAux s acc := by
  induction s with
  | nil =>
    intro acc
    rw [List.nil_append, splitWSAux_all_ws t acc ht]
    rfl
  | cons c cs ih =>
    intro acc
    rw [List.cons_append]
    unfold splitWSAux
    by_cases hws : isWS c
    · simp only [hws, if_true]
      by_cases h : acc = [] <;> simp [h, ih]
    · simp only [hws, if_false]
      exact ih _

theorem splitWSAux_dropWhile (s : List Nat) :
    splitWSAux (s.dropWhile isWS) [] = splitWSAux s [] := by
  induction s with
  | nil => rfl
  | cons c cs ih =>
    by_cases hws : isWS c
    · rw [List.dropWhile_cons]
      simp only [hws, if_true]
      rw [ih]
      conv_rhs => unfold splitWSAux
      simp [hws]
    · rw [List.dropWhile_cons]
      simp [hws]

theorem dropWhile_head_false {p : Nat → Bool} {l : List Nat} {c : Nat} {cs : List Nat}
    (h : l.dropWhile p = c :: cs) : p c = false := by
  induction l with
  | nil => simp at h
  | cons a as ih =>
    rw [List.dropWhile_cons] at h
    by_cases ha : p a
    · simp only [ha, if_true] at h
      exact ih h
    · simp only [ha] at h
      cases h
      simpa using ha

theorem dropWhile_dropWhile (p : Nat → Bool) (l : List Nat) :
    (l.dropWhile p).dropWhile p = l.dropWhile p := by
  cases h : l.dropWhile p with
  | nil => rfl
  | cons c cs =>
    rw [List.dropWhile_cons, dropWhile_head_false h]
    simp

theorem splitWS_pyStrip (s : Str) : splitWS (pyStrip s) = splitWS s := by
  unfold splitWS pyStrip
  set v := s.dropWhile isWS with hv
  have hdec : (v.reverse.dropWhile isWS).reverse ++ (v.reverse.takeWhile isWS).reverse
      = v := by
    rw [← List.reverse_append, List.takeWhile_append_dropWhile, List.reverse_reverse]
  have hws : ∀ c ∈ (v.reverse.takeWhile isWS).reverse, isWS c = true := by
    intro c hc
    exact List.mem_takeWhile_imp (List.mem_reverse.mp hc)
  calc splitWSAux ((v.reverse.dropWhile isWS).reverse) []
      = splitWSAux ((v.reverse.dropWhile isWS).reverse
          ++ (v.reverse.takeWhile isWS).reverse) [] := by
        rw [splitWSAux_append_ws _ _ hws]
    _ = splitWSAux v [] := by rw [hdec]
    _ = splitWSAux s [] := splitWSAux_dropWhile s

theorem pyStrip_idem (s : Str) : pyStrip (pyStrip s) = pyStrip s := by
  unfold pyStrip
  set v := s.dropWhile isWS with hv
  set w := v.reverse.dropWhile isWS with hw
  have hA : w.reverse.dropWhile isWS = w.reverse := by
    cases hwr : w.reverse with
    | nil => rfl
    | cons c cs =>
      have hlast : w.getLast? = some c := by
        rw [← List.head?_reverse, hwr]
        rfl
      have hvlast : v.reverse.getLast? = some c := by
        have hsplit : v.reverse.takeWhile isWS ++ w = v.reverse :=
          List.takeWhile_append_dropWhile isWS v.reverse
        rw [← hsplit, List.getLast?_append]
        have : w ≠ [] := by
          intro h
          rw [h] at hwr
          simp at hwr
        rw [hlast]
        rfl
      have hvhead : v.head? = some c := by
        rw [← List.getLast?_reverse, hvlast]
      have hcws : isWS c = false := by
        cases hvv : v with
        | nil => rw [hvv] at hvhead; simp at hvhead
        | cons d ds =>
          rw [hvv] at hvhead
          simp at hvhead
          subst hvhead
          exact dropWhile_head_false (p := isWS) (l := s) hvv
      rw [List.dropWhile_cons, hcws]
      simp
  rw [hA, List.reverse_reverse, hw, dropWhile_dropWhile]

theorem dropWhile_lowerStr (s : Str) :
    (lowerStr s).dropWhile isWS = lowerStr (s.dropWhile isWS) := by
  induction s with
  | nil => rfl
  | cons c cs ih =>
    have hcons : lowerStr (c :: cs) = pyLower c :: lowerStr cs := rfl
    rw [hcons, List.dropWhile_cons, List.dropWhile_cons, isWS_pyLower]
    by_cases h : isWS c
    · rw [if_pos h, if_pos h]
      exact ih
    · rw [if_neg h, if_neg h]
      rfl

theorem pyStrip_lowerStr (s : Str) : pyStrip (lowerStr s) = lowerStr (pyStrip s) := by
  unfold pyStrip
  rw [dropWhile_lowerStr]
  show ((lowerStr (s.dropWhile isWS)).reverse.dropWhile isWS).reverse = _
  rw [show (lowerStr (s.dropWhile isWS)).reverse = lowerStr ((s.dropWhile isWS).reverse) by
    unfold lowerStr; rw [List.map_reverse]]
  rw [dropWhile_lowerStr]
  unfold lowerStr
  rw [List.map_reverse]

theorem splitWSAux_cons_false {c : Nat} {cs acc : List Nat} (h : isWS c = false) :
    splitWSAux (c :: cs) acc = splitWSAux cs (c :: acc) := by
  conv_lhs => unfold splitWSAux
  simp [h]

theorem splitWSAux_cons_true {c : Nat} {cs acc : List Nat} (h : isWS c = true) :
    splitWSAux (c :: cs) acc
      = if acc = [] then splitWSAux cs [] else acc.reverse :: splitWSAux cs [] := by
  conv_lhs => unfold splitWSAux
  simp [h]

theorem splitWSAux_word_append (w rest : List Nat) (hw : ∀ c ∈ w, isWS c = false) :
    ∀ acc, splitWSAux (w ++ rest) acc = splitWSAux rest (w.reverse ++ acc) := by
  induction w with
  | nil => intro acc; rfl
  | cons c cs ih =>
    intro acc
    have hc : isWS c = false := hw c (by simp)
    rw [List.cons_append, splitWSAux_cons_false hc,
      ih (fun d hd => hw d (List.mem_cons_of_mem _ hd)) (c :: acc)]
    congr 1
    simp

theorem splitWS_joinWords (ws : List Str)
    (h : ∀ w ∈ ws, w ≠ [] ∧ ∀ c ∈ w, isWS c = false) :
    splitWS (joinWords ws) = ws := by
  induction ws with
  | nil => rfl
  | cons w vs ih =>
    cases vs with
    | nil =>
      obtain ⟨hne, hchars⟩ := h w (by simp)
      show splitWSAux (joinWords [w]) [] = [w]
      unfold joinWords
      rw [show w = w ++ [] from (List.append_nil w).symm] 
      rw [splitWSAux_word_append _ _ (by simpa using hchars)]
      unfold splitWSAux
      simp [hne]
    | cons v vs2 =>
      obtain ⟨hne, hchars⟩ := h w (by simp)
      show splitWSAux (joinWords (w :: v :: vs2)) [] = _
      unfold joinWords
      rw [splitWSAux_word_append _ _ hchars]
      unfold splitWSAux
      have h32 : isWS 32 = true := by decide
      simp only [h32, if_true]
      have hrne : w.reverse ++ [] ≠ [] := by simpa using hne
      simp only [hrne, if_false]
      have : splitWSAux (joinWords (v :: vs2)) [] = v :: vs2 :=
        ih (fun x hx => h x (List.mem_cons_of_mem _ hx))
      rw [this]
      simp

theorem splitWSAux_map_lower (s : List Nat) :
    ∀ acc, splitWSAux (lowerStr s) (lowerStr acc) = (splitWSAux s acc).map lowerStr := by
  induction s with
  | nil =>
    intro acc
    show splitWSAux [] (lowerStr acc) = _
    unfold splitWSAux
    by_cases h : acc = []
    · simp [h, lowerStr]
    · have h2 : lowerStr acc ≠ [] := by
        simpa [lowerStr] using h
      rw [if_neg h2, if_neg h]
      simp only [List.map_cons, List.map_nil]
      unfold lowerStr
      rw [List.map_reverse]
  | cons c cs ih =>
    intro acc
    have hcons : lowerStr (c :: cs) = pyLower c :: lowerStr cs := rfl
    rw [hcons]
    by_cases h : isWS c
    · rw [splitWSAux_cons_true (by rw [isWS_pyLower]; exact h),
        splitWSAux_cons_true h]
      by_cases ha : acc = []
      · have ha2 : lowerStr acc = [] := by simp [ha, lowerStr]
        rw [if_pos ha2, if_pos ha]
        have := ih []
        simpa [lowerStr] using this
      · have ha2 : lowerStr acc ≠ [] := by simpa [lowerStr] using ha
        rw [if_neg ha2, if_neg ha]
        simp only [List.map_cons]
        rw [show (lowerStr acc).reverse = lowerStr acc.reverse by
          unfold lowerStr; rw [List.map_reverse]]
        congr 1
        have := ih []
        simpa [lowerStr] using this
    · have hf : isWS c = false := by simpa using h
      rw [splitWSAux_cons_false (by rw [isWS_pyLower]; exact hf),
        splitWSAux_cons_false hf]
      have := ih (c :: acc)
      simpa [lowerStr] using this

theorem splitWS_lowerStr (s : Str) :
    splitWS (lowerStr s) = (splitWS s).map lowerStr := by
  have := splitWSAux_map_lower s []
  simpa [splitWS, lowerStr] using this

theorem joinWords_lowerStr (ws : List Str) :
    lowerStr (joinWords ws) = joinWords (ws.map lowerStr) := by
  induction ws with
  | nil => rfl
  | cons w vs ih =>
    cases vs with
    | nil => rfl
    | cons v vs2 =>
      show lowerStr (w ++ 32 :: joinWords (v :: vs2)) = _
      unfold lowerStr
      rw [List.map_append, List.map_cons, pyLower_space]
      show lowerStr w ++ 32 :: lowerStr (joinWords (v :: vs2)) = _
      rw [ih]
      rfl

theorem normalize_name_idem (s : Str) :
    normalize_name (normalize_name s) = normalize_name s := by
  by_cases hs : s = []
  · rw [hs]
    rfl
  · unfold normalize_name
    rw [if_neg hs]
    set t := joinWords (splitWS (pyStrip (lowerStr s))) with ht
    by_cases hts : t = []
    · rw [if_pos hts, hts]
    · rw [if_neg hts]
      have hws : ∀ w ∈ splitWS (pyStrip (lowerStr s)), w ≠ [] ∧ ∀ c ∈ w, isWS c = false :=
        splitWSAux_words _ [] (by simp)
      have hsplits : splitWS (pyStrip (lowerStr s)) = (splitWS (pyStrip s)).map lowerStr := by
        rw [pyStrip_lowerStr, splitWS_lowerStr]
      have hlow : lowerStr t = t := by
        rw [ht, joinWords_lowerStr]
        congr 1
        rw [hsplits, List.map_map]
        apply List.map_congr_left
        intro w _
        exact lowerStr_lowerStr w
      rw [hlow, splitWS_pyStrip, ht, splitWS_joinWords _ hws]

theorem capFirst_capFirst (s : Str) : capFirst (capFirst s) = capFirst s := by
  cases s with
  | nil => rfl
  | cons c cs => simp [capFirst, pyUpper_pyUpper]

theorem normalize_criterion_name_eq_capFirst (s : Str) :
    normalize_criterion_name s = capFirst (joinWords (splitWS (pyStrip s))) := by
  unfold normalize_criterion_name
  by_cases hs : s = []
  · rw [if_pos hs, hs]
    rfl
  · rw [if_neg hs]
    simp only []
    generalize joinWords (splitWS (pyStrip s)) = n
    by_cases hne : n = []
    · rw [if_pos hne, hne]
      rfl
    · rw [if_neg hne]
      cases n with
      | nil => exact absurd rfl hne
      | cons c cs =>
        cases cs with
        | nil =>
          have : ¬(1 < [c].length) := by simp
          rw [if_neg this]
          rfl
        | cons d ds =>
          have : 1 < (c :: d :: ds).length := by simp
          rw [if_pos this]
          rfl

theorem capFirst_joinWords_cons (c : Nat) (cs : Str) (rest : List Str) :
    capFirst (joinWords ((c :: cs) :: rest)) = joinWords ((pyUpper c :: cs) :: rest) := by
  cases rest with
  | nil => rfl
  | cons r rs => rfl

theorem normalize_criterion_name_idem (s : Str) :
    normalize_criterion_name (normalize_criterion_name s) = normalize_criterion_name s := by
  rw [normalize_criterion_name_eq_capFirst s]
  have hws : ∀ w ∈ splitWS (pyStrip s), w ≠ [] ∧ ∀ c ∈ w, isWS c = false :=
    splitWSAux_words (pyStrip s) [] (by simp)
  revert hws
  generalize splitWS (pyStrip s) = ws
  intro hws
  cases ws with
  | nil => rfl
  | cons w rest =>
    obtain ⟨hwne, hwchars⟩ := hws w (List.mem_cons_self w rest)
    cases w with
    | nil => exact absurd rfl hwne
    | cons c cs =>
      rw [capFirst_joinWords_cons]
      have hws2 : ∀ w ∈ (pyUpper c :: cs) :: rest, w ≠ [] ∧ ∀ d ∈ w, isWS d = false := by
        intro w hw
        rcases List.mem_cons.mp hw with rfl | hw
        · refine ⟨by simp, ?_⟩
          intro d hd
          rcases List.mem_cons.mp hd with rfl | hd
          · rw [isWS_pyUpper]
            exact hwchars c (by simp)
          · exact hwchars d (by simp [hd])
        · exact hws w (List.mem_cons_of_mem _ hw)
      rw [normalize_criterion_name_eq_capFirst, splitWS_pyStrip,
        splitWS_joinWords _ hws2, capFirst_joinWords_cons, pyUpper_pyUpper]

/-- C8: `normalize_name` (the spec's `normalize_loose`) and
`normalize_criterion_name` are total functions on strings, both return the
empty string on empty input, both are idempotent, and
`normalize_criterion_name` capitalizes only the first character of the
trimmed, whitespace-collapsed input, leaving the rest unchanged. -/
theorem C8_normalizers_contract :
    normalize_name [] = []
    ∧ normalize_criterion_name [] = []
    ∧ (∀ s : Str, normalize_name (normalize_name s) = normalize_name s)
    ∧ (∀ s : Str, normalize_criterion_name (normalize_criterion_name s)
        = normalize_criterion_name s)
    ∧ (∀ s : Str, normalize_criterion_name s
        = capFirst (joinWords (splitWS (pyStrip s)))) :=
  ⟨rfl, rfl, normalize_name_idem, normalize_criterion_name_idem,
    normalize_criterion_name_eq_capFirst⟩

theorem lexLeB_refl (l : List Nat) : lexLeB l l = true := by
  induction l with
  | nil => rfl
  | cons a as ih =>
    unfold lexLeB
    simp [Nat.lt_irrefl, ih]

theorem lowerStr_ne_nil {d : Str} (h : d ≠ []) : lowerStr d ≠ [] := by
  simpa [lowerStr] using h

theorem dedupNormNames_mem (l : List Str) :
    ∀ seen, ∀ d ∈ dedupNormNames l seen,
      pyStrip d = d ∧ d ≠ [] ∧ lowerStr d ∉ seen := by
  induction l with
  | nil => intro seen d hd; simp [dedupNormNames] at hd
  | cons n ns ih =>
    intro seen d hd
    unfold dedupNormNames at hd
    by_cases h0 : pyStrip n = []
    · rw [if_pos h0] at hd
      exact ih seen d hd
    · rw [if_neg h0] at hd
      by_cases h1 : lowerStr (pyStrip n) ∈ seen
      · rw [if_pos h1] at hd
        exact ih seen d hd
      · rw [if_neg h1] at hd
        rcases List.mem_cons.mp hd with rfl | hd
        · exact ⟨pyStrip_idem n, h0, h1⟩
        · have := ih _ d hd
          exact ⟨this.1, this.2.1, fun hmem => this.2.2 (List.mem_cons_of_mem _ hmem)⟩

theorem dedupNormNames_pairwise (l : List Str) :
    ∀ seen, List.Pairwise (fun a b => lowerStr a ≠ lowerStr b) (dedupNormNames l seen) := by
  induction l with
  | nil => intro seen; simp [dedupNormNames]
  | cons n ns ih =>
    intro seen
    unfold dedupNormNames
    by_cases h0 : pyStrip n = []
    · rw [if_pos h0]
      exact ih seen
    · rw [if_neg h0]
      by_cases h1 : lowerStr (pyStrip n) ∈ seen
      · rw [if_pos h1]
        exact ih seen
      · rw [if_neg h1]
        refine List.Pairwise.cons ?_ (ih _)
        intro d hd heq
        have := (dedupNormNames_mem ns _ d hd).2.2
        exact this (heq ▸ List.mem_cons_self _ _)

theorem dedupNormNames_display (l : List Str) :
    ∀ seen, ∀ d ∈ dedupNormNames l seen,
      ∃ m, l.find? (fun m => lowerStr (pyStrip m) == lowerStr d) = some m
        ∧ pyStrip m = d := by
  induction l with
  | nil => intro seen d hd; simp [dedupNormNames] at hd
  | cons n ns ih =>
    intro seen d hd
    have hprops := dedupNormNames_mem (n :: ns) seen d hd
    unfold dedupNormNames at hd
    by_cases h0 : pyStrip n = []
    · rw [if_pos h0] at hd
      obtain ⟨m, hm, hms⟩ := ih seen d hd
      refine ⟨m, ?_, hms⟩
      rw [List.find?_cons]
      have : (lowerStr (pyStrip n) == lowerStr d) = false := by
        rw [h0, show lowerStr [] = ([] : Str) from rfl]
        simp only [beq_eq_false_iff_ne, ne_eq]
        intro heq
        exact lowerStr_ne_nil hprops.2.1 heq.symm
      rw [this]
      exact hm
    · rw [if_neg h0] at hd
      by_cases h1 : lowerStr (pyStrip n) ∈ seen
      · rw [if_pos h1] at hd
        obtain ⟨m, hm, hms⟩ := ih seen d hd
        refine ⟨m, ?_, hms⟩
        rw [List.find?_cons]
        have hne : (lowerStr (pyStrip n) == lowerStr d) = false := by
          have := (dedupNormNames_mem ns seen d hd).2.2
          simp only [beq_eq_false_iff_ne, ne_eq]
          intro heq
          exact this (heq ▸ h1)
        rw [hne]
        exact hm
      · rw [if_neg h1] at hd
        rcases List.mem_cons.mp hd with rfl | hd
        · refine ⟨n, ?_, rfl⟩
          rw [List.find?_cons]
          have : (lowerStr (pyStrip n) == lowerStr (pyStrip n)) = true := by simp
          rw [this]
        · obtain ⟨m, hm, hms⟩ := ih _ d hd
          refine ⟨m, ?_, hms⟩
          rw [List.find?_cons]
          have hnotin := (dedupNormNames_mem ns _ d hd).2.2
          have hne : (lowerStr (pyStrip n) == lowerStr d) = false := by
            simp only [beq_eq_false_iff_ne, ne_eq]
            intro heq
            exact hnotin (heq ▸ List.mem_cons_self _ _)
          rw [hne]
          exact hm

theorem dedupNormNames_covers (l : List Str) :
    ∀ seen, ∀ n ∈ l, pyStrip n ≠ [] →
      lowerStr (pyStrip n) ∈ seen
      ∨ ∃ d ∈ dedupNormNames l seen, lowerStr d = lowerStr (pyStrip n) := by
  induction l with
  | nil => intro seen n hn; simp at hn
  | cons m ms ih =>
    intro seen n hn hne
    unfold dedupNormNames
    rcases List.mem_cons.mp hn with rfl | hn
    · rw [if_neg hne]
      by_cases h1 : lowerStr (pyStrip n) ∈ seen
      · left; exact h1
      · right
        rw [if_neg h1]
        exact ⟨pyStrip n, List.mem_cons_self _ _, rfl⟩
    · by_cases h0 : pyStrip m = []
      · rw [if_pos h0]
        exact ih seen n hn hne
      · rw [if_neg h0]
        by_cases h1 : lowerStr (pyStrip m) ∈ seen
        · rw [if_pos h1]
          exact ih seen n hn hne
        · rw [if_neg h1]
          rcases ih (lowerStr (pyStrip m) :: seen) n hn hne with hseen | ⟨d, hd, hkey⟩
          · rcases List.mem_cons.mp hseen with heq | hseen
            · right
              exact ⟨pyStrip m, List.mem_cons_self _ _, heq.symm⟩
            · left; exact hseen
          · right
            exact ⟨d, List.mem_cons_of_mem _ hd, hkey⟩

theorem criteriaNames_perm (l : List Str) :
    (criteriaNames l).Perm (dedupNormNames l []) :=
  List.perm_insertionSort caseKeyLe (dedupNormNames l [])

theorem criteriaNames_mem (l : List Str) {d : Str} :
    d ∈ criteriaNames l ↔ d ∈ dedupNormNames l [] :=
  (criteriaNames_perm l).mem_iff

theorem criteriaNames_pairwise (l : List Str) :
    List.Pairwise (fun a b => lowerStr a ≠ lowerStr b) (criteriaNames l) := by
  have hsym : ∀ {x y : Str}, lowerStr x ≠ lowerStr y → lowerStr y ≠ lowerStr x :=
    fun h heq => h heq.symm
  exact (List.Perm.pairwise_iff hsym (criteriaNames_perm l)).mpr
    (dedupNormNames_pairwise l [])

theorem criteriaNames_sorted (l : List Str) :
    List.Sorted caseKeyLe (criteriaNames l) :=
  List.sorted_insertionSort caseKeyLe (dedupNormNames l [])

/-- C1 (counterexample): the stored criterion names `"a  b"` and `"a b"`
normalize identically under `normalize_loose` (which collapses internal
whitespace), yet the Criterion Registry emits two entries for them, because
its dedup key is only `name.strip().lower()` — internal whitespace runs are
not collapsed. -/
theorem C1_registry_counterexample :
    normalize_name (strCodes "a  b") = normalize_name (strCodes "a b")
    ∧ strCodes "a  b" ≠ strCodes "a b"
    ∧ criteriaNames [strCodes "a  b", strCodes "a b"]
        = [strCodes "a  b", strCodes "a b"] := by
  decide

/-- C1 (amended): for every pair of stored criterion names identical after
*trimming and lowercasing* (no internal-whitespace collapsing), the registry
output contains exactly one entry: entries have pairwise-distinct
trim+lowercase keys, and every name with a nonempty trim is represented.  The
emitted display form is the *stripped* first-seen variant, and the output is
sorted case-insensitively. -/
theorem C1_registry_amended (names : List Str) :
    List.Pairwise (fun a b => lowerStr a ≠ lowerStr b) (criteriaNames names)
    ∧ (∀ n ∈ names, pyStrip n ≠ [] →
        ∃ d ∈ criteriaNames names, lowerStr d = lowerStr (pyStrip n))
    ∧ (∀ d ∈ criteriaNames names,
        ∃ m, names.find? (fun m => lowerStr (pyStrip m) == lowerStr d) = some m
          ∧ pyStrip m = d)
    ∧ List.Sorted caseKeyLe (criteriaNames names) := by
  refine ⟨criteriaNames_pairwise names, ?_, ?_, criteriaNames_sorted names⟩
  · intro n hn hne
    rcases dedupNormNames_covers names [] n hn hne with hmem | ⟨d, hd, hkey⟩
    · simp at hmem
    · exact ⟨d, (criteriaNames_mem names).mpr hd, hkey⟩
  · intro d hd
    exact dedupNormNames_display names [] d ((criteriaNames_mem names).mp hd)

theorem C1_registry_amended_witness :
    ∃ d ∈ criteriaNames [strCodes " Accuracy ", strCodes "ACCURACY"],
      lowerStr d = lowerStr (pyStrip (strCodes " Accuracy ")) :=
  (C1_registry_amended [strCodes " Accuracy ", strCodes "ACCURACY"]).2.1
    (strCodes " Accuracy ") (by decide) (by decide)

theorem selectFrameworks_perm (db : List Framework) (ids : List Nat) :
    (selectFrameworks db ids).Perm (db.filter (fun fw => decide (fw.id ∈ ids))) :=
  List.perm_insertionSort fwDisplayLe _

theorem selectFrameworks_sorted (db : List Framework) (ids : List Nat) :
    List.Sorted fwDisplayLe (selectFrameworks db ids) :=
  List.sorted_insertionSort fwDisplayLe _

theorem buildRowsAux_cons (n : Str) (ns : List Str) (fws : List Framework)
    (seen : List Str) :
    buildRowsAux (n :: ns) fws seen
      = if pyStrip (lowerStr n) ∈ seen then buildRowsAux ns fws seen
        else { name := n, framework_data := fws.map (fun fw => cellFor fw n) }
          :: buildRowsAux ns fws (pyStrip (lowerStr n) :: seen) := rfl

theorem buildRowsAux_eq_map (names : List Str) (fws : List Framework) :
    ∀ seen,
      List.Pairwise (fun a b => lowerStr a ≠ lowerStr b) names →
      (∀ n ∈ names, pyStrip n = n) →
      (∀ n ∈ names, lowerStr n ∉ seen) →
      buildRowsAux names fws seen
        = names.map (fun n =>
            { name := n,
              framework_data := fws.map (fun fw => cellFor fw n) }) := by
  induction names with
  | nil => intro seen _ _ _; rfl
  | cons n ns ih =>
    intro seen hpw hstrip hseen
    have hkey : pyStrip (lowerStr n) = lowerStr n := by
      rw [pyStrip_lowerStr, hstrip n (List.mem_cons_self _ _)]
    rw [buildRowsAux_cons, hkey, if_neg (hseen n (List.mem_cons_self _ _))]
    rw [List.map_cons]
    congr 1
    apply ih _ (List.Pairwise.sublist (List.sublist_cons_self n ns) hpw)
      (fun m hm => hstrip m (List.mem_cons_of_mem _ hm))
    intro m hm
    intro hmem
    rcases List.mem_cons.mp hmem with heq | hmem2
    · exact (List.pairwise_cons.mp hpw).1 m hm heq.symm
    · exact hseen m (List.mem_cons_of_mem _ hm) hmem2

theorem buildRows_registry (l : List Str) (fws : List Framework) :
    buildRows (criteriaNames l) fws
      = (criteriaNames l).map (fun n =>
          { name := n,
            framework_data := fws.map (fun fw => cellFor fw n) }) := by
  apply buildRowsAux_eq_map _ _ [] (criteriaNames_pairwise l) ?_ (by simp)
  intro n hn
  exact (dedupNormNames_mem l [] n ((criteriaNames_mem l).mp hn)).1

theorem comparison_rows_length (db : List Framework) (ids : List Nat) :
    (buildComparison db ids).comparison_data.length
      = (criteriaNames (allCriteriaNames db ids)).length := by
  show (buildRows (criteriaNames (allCriteriaNames db ids))
    (selectFrameworks db ids)).length = _
  rw [buildRows_registry, List.length_map]

/-- C3: the comparison matrix has one row per entry of the deduplicated
criterion-name list (in that order), every row carries exactly one cell per
selected framework in the frameworks' display order (`-year`, then `name`,
over the resolved id set), and a framework without a case-insensitive match
for the row's name yields a `has_criterion: False` cell rather than an
error. -/
theorem C3_matrix_shape (db : List Framework) (ids : List Nat) :
    ((buildComparison db ids).comparison_data.map Row.name
        = criteriaNames (allCriteriaNames db ids))
    ∧ ((buildComparison db ids).comparison_data.length
        = (criteriaNames (allCriteriaNames db ids)).length)
    ∧ (∀ row ∈ (buildComparison db ids).comparison_data,
        row.framework_data
          = (buildComparison db ids).selected.map (fun fw => cellFor fw row.name))
    ∧ ((buildComparison db ids).selected.Perm
        (db.filter (fun fw => decide (fw.id ∈ ids))))
    ∧ List.Sorted fwDisplayLe (buildComparison db ids).selected
    ∧ (∀ fw nm, (∀ c ∈ fw.criteria, criterionMatch nm c = false) →
        cellFor fw nm
          = { has_criterion := false, description := [], category := [],
              definitions := [], llm_description := none,
              has_llm_enhancement := none }) := by
  refine ⟨?_, ?_, ?_, selectFrameworks_perm db ids, selectFrameworks_sorted db ids, ?_⟩
  · show (buildRows (criteriaNames (allCriteriaNames db ids))
      (selectFrameworks db ids)).map Row.name = _
    rw [buildRows_registry, List.map_map]
    exact List.map_id _
  · exact comparison_rows_length db ids
  · intro row hrow
    have hrow2 : row ∈ buildRows (criteriaNames (allCriteriaNames db ids))
        (selectFrameworks db ids) := hrow
    rw [buildRows_registry] at hrow2
    obtain ⟨n, _, rfl⟩ := List.mem_map.mp hrow2
    rfl
  · intro fw nm hnone
    unfold cellFor
    rw [List.find?_eq_none.mpr (fun c hc => by simp [hnone c hc])]

theorem C3_matrix_shape_witness :
    cellFor { id := 1, name := strCodes "A", year := some 2020, criteria := [] }
        (strCodes "X")
      = { has_criterion := false, description := [], category := [],
            definitions := [], llm_description := none,
            has_llm_enhancement := none } :=
  (C3_matrix_shape [] []).2.2.2.2.2 _ _ (by decide)

theorem classifyAux_sims_sub (sel : List Framework) (names : List Str) :
    ∀ s ∈ (classifyAux sel names).1, s ∈ names := by
  induction names with
  | nil => intro s hs; simp [classifyAux] at hs
  | cons n ns ih =>
    intro s hs
    unfold classifyAux at hs
    by_cases h1 : presenceCount sel n = sel.length
    · rw [if_pos h1] at hs
      rcases List.mem_cons.mp hs with rfl | hs
      · exact List.mem_cons_self _ _
      · exact List.mem_cons_of_mem _ (ih s hs)
    · rw [if_neg h1] at hs
      by_cases h2 : 0 < presenceCount sel n
      · rw [if_pos h2] at hs
        exact List.mem_cons_of_mem _ (ih s hs)
      · rw [if_neg h2] at hs
        exact List.mem_cons_of_mem _ (ih s hs)

theorem classifyAux_diffs_sub (sel : List Framework) (names : List Str) :
    ∀ e ∈ (classifyAux sel names).2, e.criterion ∈ names := by
  induction names with
  | nil => intro e he; simp [classifyAux] at he
  | cons n ns ih =>
    intro e he
    unfold classifyAux at he
    by_cases h1 : presenceCount sel n = sel.length
    · rw [if_pos h1] at he
      exact List.mem_cons_of_mem _ (ih e he)
    · rw [if_neg h1] at he
      by_cases h2 : 0 < presenceCount sel n
      · rw [if_pos h2] at he
        rcases List.mem_cons.mp he with rfl | he
        · exact List.mem_cons_self _ _
        · exact List.mem_cons_of_mem _ (ih e he)
      · rw [if_neg h2] at he
        exact List.mem_cons_of_mem _ (ih e he)

theorem classify_sims_sub (sel : List Framework) (names : List Str) :
    ∀ s ∈ (classify sel names).1, s ∈ names := by
  unfold classify
  by_cases h : 1 < sel.length
  · rw [if_pos h]
    exact classifyAux_sims_sub sel names
  · rw [if_neg h]
    intro s hs
    simp at hs

theorem classify_diffs_sub (sel : List Framework) (names : List Str) :
    ∀ e ∈ (classify sel names).2, e.criterion ∈ names := by
  unfold classify
  by_cases h : 1 < sel.length
  · rw [if_pos h]
    exact classifyAux_diffs_sub sel names
  · rw [if_neg h]
    intro e he
    simp at he

theorem dedupNormNames_cons (n : Str) (ns seen : List Str) :
    dedupNormNames (n :: ns) seen
      = if pyStrip n = [] then dedupNormNames ns seen
        else if lowerStr (pyStrip n) ∈ seen then dedupNormNames ns seen
        else pyStrip n :: dedupNormNames ns (lowerStr (pyStrip n) :: seen) := rfl

theorem dedupNormNames_filter_blank (l : List Str) :
    ∀ seen, dedupNormNames l seen
      = dedupNormNames (l.filter (fun n => !(pyStrip n == []))) seen := by
  induction l with
  | nil => intro seen; rfl
  | cons n ns ih =>
    intro seen
    by_cases h0 : pyStrip n = []
    · rw [List.filter_cons_of_neg (by simp [h0]), dedupNormNames_cons, if_pos h0]
      exact ih seen
    · rw [List.filter_cons_of_pos (by simp [h0]), dedupNormNames_cons,
        dedupNormNames_cons, if_neg h0, if_neg h0]
      by_cases h1 : lowerStr (pyStrip n) ∈ seen
      · rw [if_pos h1, if_pos h1]
        exact ih seen
      · rw [if_neg h1, if_neg h1, ih _]

/-- C10: a stored criterion whose name is empty or whitespace-only is
silently omitted by `compare_frameworks`: the registry output equals the
output on the blank-free input, every registry entry is a nonempty name, and
consequently no matrix row and no similarity/difference entry carries an
empty name. -/
theorem C10_blank_names_omitted (db : List Framework) (ids : List Nat)
    (names : List Str) :
    (criteriaNames names
        = criteriaNames (names.filter (fun n => !(pyStrip n == []))))
    ∧ (∀ d ∈ criteriaNames names, d ≠ [])
    ∧ (∀ row ∈ (buildComparison db ids).comparison_data, row.name ≠ [])
    ∧ (∀ s ∈ (buildComparison db ids).similarities, s ≠ [])
    ∧ (∀ e ∈ (buildComparison db ids).differences, e.criterion ≠ []) := by
  have hne : ∀ (l : List Str), ∀ d ∈ criteriaNames l, d ≠ [] := fun l d hd =>
    (dedupNormNames_mem l [] d ((criteriaNames_mem l).mp hd)).2.1
  refine ⟨?_, hne names, ?_, ?_, ?_⟩
  · unfold criteriaNames
    rw [dedupNormNames_filter_blank]
  · intro row hrow
    have hrow2 : row ∈ buildRows (criteriaNames (allCriteriaNames db ids))
        (selectFrameworks db ids) := hrow
    rw [buildRows_registry] at hrow2
    obtain ⟨n, hn, rfl⟩ := List.mem_map.mp hrow2
    exact hne _ n hn
  · intro s hs
    exact hne _ s (classify_sims_sub _ _ s hs)
  · intro e he
    exact hne _ e.criterion (classify_diffs_sub _ _ e he)

theorem C10_blank_names_omitted_witness :
    strCodes "Accuracy" ≠ ([] : Str) :=
  (C10_blank_names_omitted [] [] [strCodes "   ", strCodes "Accuracy"]).2.1
    (strCodes "Accuracy") (by decide)

/-- C2 (counterexample): with two selected frameworks, a stored criterion
name carrying surrounding whitespace (`" Accuracy "`) yields a registry row
whose trimmed name matches *no* framework under `name__iexact`, so its
presence count is 0 and it is appended to neither `similarities` nor
`differences`: `len(similarities) + len(differences) ≠ len(rows)` although
N > 1. -/
theorem C2_classifier_counterexample :
    1 < (buildComparison whitespaceNameDb [1, 2]).selected.length
    ∧ (buildComparison whitespaceNameDb [1, 2]).similarities.length
        + (buildComparison whitespaceNameDb [1, 2]).differences.length
      ≠ (buildComparison whitespaceNameDb [1, 2]).comparison_data.length := by
  decide

theorem classifyAux_length (sel : List Framework) (hpos : 0 < sel.length) :
    ∀ names : List Str,
      (classifyAux sel names).1.length + (classifyAux sel names).2.length
        = (names.filter (fun n => decide (0 < presenceCount sel n))).length := by
  intro names
  induction names with
  | nil => rfl
  | cons n ns ih =>
    unfold classifyAux
    by_cases h1 : presenceCount sel n = sel.length
    · rw [if_pos h1]
      have hp : (decide (0 < presenceCount sel n)) = true := by
        simp only [decide_eq_true_eq]
        omega
      simp only [List.filter_cons, hp, if_true, List.length_cons]
      omega
    · rw [if_neg h1]
      by_cases h2 : 0 < presenceCount sel n
      · rw [if_pos h2]
        have hp : (decide (0 < presenceCount sel n)) = true := by simpa using h2
        simp only [List.filter_cons, hp, if_true, List.length_cons]
        omega
      · rw [if_neg h2]
        have hp : (decide (0 < presenceCount sel n)) = false := by simpa using h2
        simp only [List.filter_cons, hp, Bool.false_eq_true, if_false]
        exact ih

theorem dedupFirstAux_mem (l : List Str) :
    ∀ seen x, x ∈ dedupFirstAux l seen → x ∈ l := by
  induction l with
  | nil => intro seen x hx; simp [dedupFirstAux] at hx
  | cons a as ih =>
    intro seen x hx
    unfold dedupFirstAux at hx
    by_cases h : a ∈ seen
    · rw [if_pos h] at hx
      exact List.mem_cons_of_mem _ (ih seen x hx)
    · rw [if_neg h] at hx
      rcases List.mem_cons.mp hx with rfl | hx
      · exact List.mem_cons_self _ _
      · exact List.mem_cons_of_mem _ (ih _ x hx)

theorem registry_name_stored (db : List Framework) (ids : List Nat) :
    ∀ d ∈ criteriaNames (allCriteriaNames db ids),
      ∃ fw ∈ db.filter (fun fw => decide (fw.id ∈ ids)),
        ∃ c ∈ fw.criteria, pyStrip c.name = d := by
  intro d hd
  obtain ⟨m, hfind, hms⟩ :=
    dedupNormNames_display _ [] d ((criteriaNames_mem _).mp hd)
  have hmem : m ∈ allCriteriaNames db ids := List.mem_of_find?_eq_some hfind
  have hmem2 := dedupFirstAux_mem _ [] m hmem
  obtain ⟨lnames, hl, hml⟩ := List.mem_flatten.mp hmem2
  obtain ⟨fw, hfw, rfl⟩ := List.mem_map.mp hl
  obtain ⟨c, hc, hcm⟩ := List.mem_map.mp hml
  exact ⟨fw, hfw, c, hc, by rw [hcm, hms]⟩

theorem presenceCount_pos (db : List Framework) (ids : List Nat)
    (hstrip : ∀ fw ∈ db, ∀ c ∈ fw.criteria, pyStrip c.name = c.name) :
    ∀ d ∈ criteriaNames (allCriteriaNames db ids),
      0 < presenceCount (selectFrameworks db ids) d := by
  intro d hd
  obtain ⟨fw, hfw, c, hc, hcd⟩ := registry_name_stored db ids d hd
  have hfwdb : fw ∈ db := (List.mem_filter.mp hfw).1
  have hcd2 : c.name = d := by
    rw [← hcd, hstrip fw hfwdb c hc]
  have hsel : fw ∈ selectFrameworks db ids :=
    (selectFrameworks_perm db ids).mem_iff.mpr hfw
  have hmatch : fw.criteria.any (criterionMatch d) = true := by
    rw [List.any_eq_true]
    exact ⟨c, hc, by simp [criterionMatch, hcd2]⟩
  unfold presenceCount
  rw [List.length_pos]
  intro hnil
  have : fw.id ∈ (((selectFrameworks db ids).filter
      (fun fw => fw.criteria.any (criterionMatch d))).map
      (fun fw => fw.id)).dedup := by
    rw [List.mem_dedup]
    exact List.mem_map.mpr ⟨fw, List.mem_filter.mpr ⟨hsel, hmatch⟩, rfl⟩
  rw [hnil] at this
  simp at this

/-- C2 (amended): when at most one framework is selected, classification is
skipped (both lists empty).  When more than one framework is selected and
every stored criterion name is already trimmed (no surrounding whitespace),
every matrix row is classified into exactly one of similarities/differences,
so `len(similarities) + len(differences) = len(rows)`; a stored name with
surrounding whitespace can instead yield a row with presence count 0 that
lands in neither list. -/
theorem C2_classifier_partition (db : List Framework) (ids : List Nat)
    (hstrip : ∀ fw ∈ db, ∀ c ∈ fw.criteria, pyStrip c.name = c.name) :
    ((buildComparison db ids).selected.length ≤ 1 →
      (buildComparison db ids).similarities = []
      ∧ (buildComparison db ids).differences = [])
    ∧ (1 < (buildComparison db ids).selected.length →
      (buildComparison db ids).similarities.length
        + (buildComparison db ids).differences.length
        = (buildComparison db ids).comparison_data.length) := by
  constructor
  · intro hle
    have hnot : ¬ 1 < (selectFrameworks db ids).length := by
      have : (buildComparison db ids).selected = selectFrameworks db ids := rfl
      rw [this] at hle
      omega
    constructor
    · show (classify (selectFrameworks db ids) _).1 = []
      unfold classify
      rw [if_neg hnot]
    · show (classify (selectFrameworks db ids) _).2 = []
      unfold classify
      rw [if_neg hnot]
  · intro hgt
    have hgt2 : 1 < (selectFrameworks db ids).length := hgt
    have hlen := classifyAux_length (selectFrameworks db ids) (by omega)
      (criteriaNames (allCriteriaNames db ids))
    have hfilter : (criteriaNames (allCriteriaNames db ids)).filter
        (fun n => decide (0 < presenceCount (selectFrameworks db ids) n))
        = criteriaNames (allCriteriaNames db ids) := by
      rw [List.filter_eq_self]
      intro n hn
      simpa using presenceCount_pos db ids hstrip n hn
    have hrows := comparison_rows_length db ids
    show (classify (selectFrameworks db ids) _).1.length
      + (classify (selectFrameworks db ids) _).2.length = _
    unfold classify
    rw [if_pos hgt2]
    rw [hlen, hfilter, hrows]

theorem C2_classifier_partition_witness :
    1 < (buildComparison cleanDb [1, 2]).selected.length
    ∧ (buildComparison cleanDb [1, 2]).similarities.length
        + (buildComparison cleanDb [1, 2]).differences.length
      = (buildComparison cleanDb [1, 2]).comparison_data.length :=
  ⟨by decide, (C2_classifier_partition cleanDb [1, 2] (by decide)).2 (by decide)⟩

theorem parseIds_filter (raw : List Str) :
    parseIds (raw.filter isDigitStr) = parseIds raw := by
  unfold parseIds
  rw [List.filter_filter]
  congr 1
  apply List.filter_congr
  intro s _
  simp [Bool.and_self]

theorem filter_resolvable (db : List Framework) (ids : List Nat) :
    db.filter (fun fw =>
        decide (fw.id ∈ ids.filter (fun i => db.any (fun fw => fw.id == i))))
      = db.filter (fun fw => decide (fw.id ∈ ids)) := by
  apply List.filter_congr
  intro fw hfw
  apply decide_eq_decide.mpr
  constructor
  · intro h
    exact (List.mem_filter.mp h).1
  · intro h
    refine List.mem_filter.mpr ⟨h, ?_⟩
    rw [List.any_eq_true]
    exact ⟨fw, hfw, by simp⟩

theorem buildComparison_empty (db : List Framework) (ids : List Nat)
    (h : db.filter (fun fw => decide (fw.id ∈ ids)) = []) :
    buildComparison db ids
      = { selected := [], comparison_data := [], similarities := [],
          differences := [] } := by
  have hsel : selectFrameworks db ids = [] := by
    unfold selectFrameworks
    rw [h]
    rfl
  have hnames : allCriteriaNames db ids = [] := by
    unfold allCriteriaNames
    rw [h]
    rfl
  unfold buildComparison
  rw [hsel, hnames]
  rfl

/-- C6: non-numeric `framework_ids` entries are dropped by the digit filter
and ids that resolve to no stored framework are dropped by the
`id__in` lookup — in both cases the comparison result is exactly the one for
the cleaned id list, with no error path; and when no id resolves at all the
result is the empty comparison (no selected frameworks, no rows, no
similarities, no differences), not an exception. -/
theorem C6_invalid_ids_dropped (db : List Framework) (raw : List Str)
    (ids : List Nat) :
    (compare_frameworks db raw = compare_frameworks db (raw.filter isDigitStr))
    ∧ (buildComparison db ids
        = buildComparison db (ids.filter (fun i => db.any (fun fw => fw.id == i))))
    ∧ (db.filter (fun fw => decide (fw.id ∈ ids)) = [] →
        buildComparison db ids
          = { selected := [], comparison_data := [], similarities := [],
              differences := [] }) := by
  refine ⟨?_, ?_, buildComparison_empty db ids⟩
  · unfold compare_frameworks
    by_cases hraw : raw = []
    · subst hraw
      rfl
    · rw [if_neg hraw, parseIds_filter]
      by_cases hflt : raw.filter isDigitStr = []
      · have hids : parseIds raw = [] := by
          unfold parseIds
          rw [hflt]
          rfl
        rw [if_pos hids, if_pos hflt]
      · rw [if_neg hflt]
  · have hsel : selectFrameworks db (ids.filter (fun i => db.any (fun fw => fw.id == i)))
        = selectFrameworks db ids := by
      unfold selectFrameworks
      rw [filter_resolvable]
    have hnames : allCriteriaNames db (ids.filter (fun i => db.any (fun fw => fw.id == i)))
        = allCriteriaNames db ids := by
      unfold allCriteriaNames
      rw [filter_resolvable]
    unfold buildComparison
    rw [hsel, hnames]

theorem C6_invalid_ids_dropped_witness :
    buildComparison cleanDb [7, 8]
      = { selected := [], comparison_data := [], similarities := [],
          differences := [] } :=
  (C6_invalid_ids_dropped cleanDb [] [7, 8]).2.2 (by decide)

theorem listStarts_length {p s : List Nat} (h : listStarts p s = true) :
    p.length ≤ s.length := by
  induction p generalizing s with
  | nil => simp
  | cons a as ih =>
    cases s with
    | nil => simp [listStarts] at h
    | cons b bs =>
      unfold listStarts at h
      rw [Bool.and_eq_true] at h
      have := ih h.2
      simp only [List.length_cons]
      omega

theorem listStarts_eq {p s : List Nat} (h : listStarts p s = true)
    (hl : p.length = s.length) : p = s := by
  induction p generalizing s with
  | nil =>
    cases s with
    | nil => rfl
    | cons b bs => simp at hl
  | cons a as ih =>
    cases s with
    | nil => simp [listStarts] at h
    | cons b bs =>
      unfold listStarts at h
      rw [Bool.and_eq_true] at h
      have hab : a = b := by simpa using h.1
      have : as = bs := ih h.2 (by simpa using hl)
      rw [hab, this]

theorem containsSub_length {p s : List Nat} (h : containsSub p s = true) :
    p.length ≤ s.length := by
  induction s with
  | nil =>
    unfold containsSub at h
    have : p = [] := by simpa using h
    simp [this]
  | cons c t ih =>
    unfold containsSub at h
    rw [Bool.or_eq_true] at h
    rcases h with h | h
    · exact listStarts_length h
    · have := ih h
      simp only [List.length_cons]
      omega

theorem containsSub_eq {p s : List Nat} (h : containsSub p s = true)
    (hl : p.length = s.length) : p = s := by
  induction s with
  | nil =>
    unfold containsSub at h
    simpa using h
  | cons c t ih =>
    unfold containsSub at h
    rw [Bool.or_eq_true] at h
    rcases h with h | h
    · exact listStarts_eq h hl
    · have := containsSub_length h
      simp only [List.length_cons] at hl
      omega

theorem getD_map_normalize (defs : List Str) (i : Nat) (hi : i < defs.length) :
    (defs.map normalize_name).getD i [] = normalize_name (defs.getD i []) := by
  rw [List.getD_eq_getElem _ _ (by simpa using hi), List.getD_eq_getElem _ _ hi,
    List.getElem_map]

theorem defRemoved_of_near (norms : List Str) (i j : Nat)
    (hj : j < norms.length) (hne : j ≠ i)
    (hcond : nearRemoveCond (norms.getD i []) (norms.getD j []) = true) :
    defRemoved norms i = true := by
  unfold defRemoved
  split
  · rfl
  · unfold removedByNear
    rw [List.any_eq_true]
    refine ⟨j, List.mem_range.mpr hj, ?_⟩
    rw [Bool.and_eq_true]
    exact ⟨by simpa using hne, hcond⟩

theorem defRemoved_of_earlier (norms : List Str) (i j : Nat)
    (hij : i < j) (hj : j < norms.length)
    (heq : norms.getD i [] = norms.getD j []) :
    defRemoved norms j = true := by
  have hi : i < norms.length := by omega
  have hmem : norms.getD j [] ∈ norms.take j := by
    rw [← heq, List.getD_eq_getElem _ _ hi]
    have hlt : i < (norms.take j).length := by
      rw [List.length_take]
      omega
    have hgt : norms[i] = (norms.take j).get ⟨i, hlt⟩ := by
      rw [List.get_eq_getElem, List.getElem_take]
    rw [hgt]
    exact (norms.take j).get_mem i hlt
  unfold defRemoved
  rw [if_pos hmem]

/-- C7: after the definition-dedup pass, for any two definitions on the same
criterion whose `normalize_name`d texts are identical, or where one
normalized text occurs inside the other with length difference below 20, at
most one of the two survives (the removal flags of the pass mark at least
one of them); in particular `"Data is correct."` and `"data is correct"`
leave exactly one survivor, the longer original. -/
theorem C7_definition_dedup :
    (∀ (defs : List Str) (i j : Nat), i < defs.length → j < defs.length →
      i ≠ j →
      nearDupRel (normalize_name (defs.getD i []))
        (normalize_name (defs.getD j [])) →
      defRemoved (defs.map normalize_name) i = true
      ∨ defRemoved (defs.map normalize_name) j = true)
    ∧ cleanup_duplicate_definitions
        [strCodes "Data is correct.", strCodes "data is correct"]
      = [strCodes "Data is correct."] := by
  constructor
  · intro defs i j hi hj hij hrel
    set norms := defs.map normalize_name with hnorms
    have hleni : i < norms.length := by
      rw [hnorms, List.length_map]
      exact hi
    have hlenj : j < norms.length := by
      rw [hnorms, List.length_map]
      exact hj
    have hni : norms.getD i [] = normalize_name (defs.getD i []) :=
      getD_map_normalize defs i hi
    have hnj : norms.getD j [] = normalize_name (defs.getD j []) :=
      getD_map_normalize defs j hj
    rw [← hni, ← hnj] at hrel
    rcases hrel with heq | ⟨hsub, hlt⟩
    · rcases Nat.lt_or_ge i j with hij2 | hij2
      · right
        exact defRemoved_of_earlier norms i j hij2 hlenj heq
      · left
        have hji : j < i := by omega
        exact defRemoved_of_earlier norms j i hji hleni heq.symm
    · rcases Nat.lt_trichotomy (norms.getD i []).length (norms.getD j []).length
        with hl | hl | hl
      · left
        apply defRemoved_of_near norms i j hlenj (fun h => hij h.symm)
        unfold nearRemoveCond
        rw [Bool.and_eq_true, Bool.and_eq_true, Bool.or_eq_true]
        exact ⟨⟨hsub, decide_eq_true hlt⟩, decide_eq_true hl⟩
      · have hab : norms.getD i [] = norms.getD j [] := by
          rcases hsub with h | h
          · exact containsSub_eq h hl
          · exact (containsSub_eq h hl.symm).symm
        rcases Nat.lt_or_ge i j with hij2 | hij2
        · right
          exact defRemoved_of_earlier norms i j hij2 hlenj hab
        · left
          have hji : j < i := by omega
          exact defRemoved_of_earlier norms j i hji hleni hab.symm
      · right
        apply defRemoved_of_near norms j i hleni hij
        unfold nearRemoveCond
        rw [Bool.and_eq_true, Bool.and_eq_true, Bool.or_eq_true]
        refine ⟨⟨?_, ?_⟩, decide_eq_true hl⟩
        · rcases hsub with h | h
          · right; exact h
          · left; exact h
        · apply decide_eq_true
          omega
  · decide

theorem C7_definition_dedup_witness :
    defRemoved ([strCodes "Data is correct.", strCodes "data is correct"].map
        normalize_name) 0 = true
    ∨ defRemoved ([strCodes "Data is correct.", strCodes "data is correct"].map
        normalize_name) 1 = true :=
  C7_definition_dedup.1 [strCodes "Data is correct.", strCodes "data is correct"]
    0 1 (by decide) (by decide) (by decide) (by decide)

/-- C4: with no available provider the orchestrator returns
`enhanced: false` with the input `comparison_data` unchanged and empty
similarity/summary/group maps; and an exception escaping to the top-level
handler (engine construction) yields `enhanced: false` plus the error
string, again with the input returned unchanged — the caller always gets a
usable comparison. -/
theorem C4_enhancement_failure_safe (data : List Row) (numFw : Nat) :
    (∀ eng : Engine, eng.provider = noneStr →
      enhance_comparison_with_llm (Except.ok eng) data numFw
        = { enhanced := false, comparison_data := data,
            semantic_similarities := [], summaries := emptyMap,
            insights := emptyMap, overall_insights := none, groups := [],
            provider := none, error := none })
    ∧ (∀ e : Str,
      enhance_comparison_with_llm (Except.error e) data numFw
        = { enhanced := false, comparison_data := data,
            semantic_similarities := [], summaries := emptyMap,
            insights := emptyMap, overall_insights := none, groups := [],
            provider := none, error := some e }) := by
  constructor
  · intro eng hp
    simp only [enhance_comparison_with_llm]
    rw [if_pos hp]
  · intro e
    rfl

theorem C4_enhancement_failure_safe_witness :
    enhance_comparison_with_llm (Except.ok noneEngine) [] 0
      = { enhanced := false, comparison_data := [], semantic_similarities := [],
          summaries := emptyMap, insights := emptyMap, overall_insights := none,
          groups := [], provider := none, error := none } :=
  (C4_enhancement_failure_safe [] 0).1 noneEngine rfl

theorem natDigitsRev_digits (n : Nat) : ∀ c ∈ natDigitsRev n, 48 ≤ c ∧ c ≤ 57 := by
  induction n using Nat.strong_induction_on with
  | _ n ih =>
    unfold natDigitsRev
    split
    · intro c hc
      simp at hc
      omega
    · intro c hc
      rcases List.mem_cons.mp hc with rfl | hc
      · have := Nat.mod_lt n (show 0 < 10 by omega)
        omega
      · exact ih (n / 10) (Nat.div_lt_self (by omega) (by omega)) c hc

theorem valRev_natDigitsRev (n : Nat) : valRev (natDigitsRev n) = n := by
  induction n using Nat.strong_induction_on with
  | _ n ih =>
    unfold natDigitsRev
    split
    · show (48 + n - 48) + 10 * valRev [] = n
      show (48 + n - 48) + 10 * 0 = n
      omega
    · show (48 + n % 10 - 48) + 10 * valRev (natDigitsRev (n / 10)) = n
      rw [ih (n / 10) (Nat.div_lt_self (by omega) (by omega))]
      omega

theorem natDigits_inj {a b : Nat} (h : natDigits a = natDigits b) : a = b := by
  have h2 : natDigitsRev a = natDigitsRev b := by
    have := congrArg List.reverse h
    simpa [natDigits] using this
  have := congrArg valRev h2
  rwa [valRev_natDigitsRev, valRev_natDigitsRev] at this

theorem digits_suffix_inj (d1 : List Nat) :
    ∀ (d2 n1 n2 : List Nat),
      (∀ c ∈ d1, 48 ≤ c ∧ c ≤ 57) → (∀ c ∈ d2, 48 ≤ c ∧ c ≤ 57) →
      d1 ++ 95 :: 95 :: n1 = d2 ++ 95 :: 95 :: n2 → d1 = d2 ∧ n1 = n2 := by
  induction d1 with
  | nil =>
    intro d2 n1 n2 _ h2 heq
    cases d2 with
    | nil =>
      simp at heq
      exact ⟨rfl, heq⟩
    | cons c cs =>
      rw [List.nil_append, List.cons_append] at heq
      have hc : 95 = c := by
        have := congrArg (fun l => List.headD l 0) heq
        simpa using this
      have := h2 c (List.mem_cons_self _ _)
      omega
  | cons c cs ih =>
    intro d2 n1 n2 h1 h2 heq
    cases d2 with
    | nil =>
      rw [List.cons_append, List.nil_append] at heq
      have hc : c = 95 := by
        have := congrArg (fun l => List.headD l 0) heq
        simpa using this
      have := h1 c (List.mem_cons_self _ _)
      omega
    | cons e es =>
      rw [List.cons_append, List.cons_append] at heq
      have hce : c = e := by
        have := congrArg (fun l => List.headD l 0) heq
        simpa using this
      have htl : cs ++ 95 :: 95 :: n1 = es ++ 95 :: 95 :: n2 := by
        have := congrArg List.tail heq
        simpa using this
      obtain ⟨hd, hn⟩ := ih es n1 n2
        (fun x hx => h1 x (List.mem_cons_of_mem _ hx))
        (fun x hx => h2 x (List.mem_cons_of_mem _ hx)) htl
      exact ⟨by rw [hce, hd], hn⟩

theorem descKey_inj {nm1 nm2 : Str} {i1 i2 : Nat}
    (h : descKey nm1 i1 = descKey nm2 i2) : nm1 = nm2 ∧ i1 = i2 := by
  unfold descKey at h
  have h2 : natDigitsRev i1 ++ 95 :: 95 :: nm1.reverse
      = natDigitsRev i2 ++ 95 :: 95 :: nm2.reverse := by
    have hr := congrArg List.reverse h
    simp only [List.reverse_append, List.append_assoc] at hr
    simpa [natDigits] using hr
  obtain ⟨hd, hn⟩ := digits_suffix_inj _ _ _ _
    (natDigitsRev_digits i1) (natDigitsRev_digits i2) h2
  constructor
  · exact List.reverse_injective hn
  · apply natDigits_inj
    unfold natDigits
    rw [hd]

theorem collectCells_mem_inv (eng : Engine) (numFw : Nat) (nm : Str) :
    ∀ (cells : List Cell) (i0 : Nat) (k : Str) (v : Str),
      (k, v) ∈ collectCells eng numFw nm cells i0 →
      ∃ i, i < cells.length ∧ k = descKey nm (i0 + i)
        ∧ cellDesc eng numFw nm (i0 + i) (cells.getD i defaultCell) = some v := by
  intro cells
  induction cells with
  | nil => intro i0 k v h; simp [collectCells] at h
  | cons cell rest ih =>
    intro i0 k v h
    unfold collectCells at h
    rcases List.mem_append.mp h with h | h
    · refine ⟨0, by simp, ?_⟩
      cases hc : cellDesc eng numFw nm i0 cell with
      | none => rw [hc] at h; simp at h
      | some d =>
        rw [hc] at h
        simp at h
        obtain ⟨hk, hv⟩ := h
        refine ⟨by rw [hk, Nat.add_zero], ?_⟩
        show cellDesc eng numFw nm (i0 + 0) cell = some v
        rw [Nat.add_zero, hc, hv]
    · obtain ⟨i, hlt, hk, hcd⟩ := ih (i0 + 1) k v h
      refine ⟨i + 1, by simpa using hlt, ?_, ?_⟩
      · rw [hk]
        congr 1
        omega
      · have harith : i0 + 1 + i = i0 + (i + 1) := by omega
        rw [harith] at hcd
        simpa using hcd

theorem collectCells_mem_of (eng : Engine) (numFw : Nat) (nm : Str) :
    ∀ (cells : List Cell) (i0 i : Nat), i < cells.length →
      ∀ v, cellDesc eng numFw nm (i0 + i) (cells.getD i defaultCell) = some v →
      (descKey nm (i0 + i), v) ∈ collectCells eng numFw nm cells i0 := by
  intro cells
  induction cells with
  | nil => intro i0 i h; simp at h
  | cons cell rest ih =>
    intro i0 i hlt v hcd
    unfold collectCells
    cases i with
    | zero =>
      apply List.mem_append_left
      rw [Nat.add_zero] at hcd ⊢
      simp only [List.getD_cons_zero] at hcd
      rw [hcd]
      simp
    | succ j =>
      apply List.mem_append_right
      have harith : i0 + (j + 1) = i0 + 1 + j := by omega
      rw [harith] at hcd ⊢
      simp only [List.getD_cons_succ] at hcd
      exact ih (i0 + 1) j (by simpa using hlt) v hcd

theorem collectDescs_mem_inv (eng : Engine) (numFw : Nat) (data : List Row)
    {k : Str} {v : Str} (h : (k, v) ∈ collectDescs eng numFw data) :
    ∃ row ∈ data, ∃ i, i < row.framework_data.length
      ∧ k = descKey row.name i
      ∧ cellDesc eng numFw row.name i (row.framework_data.getD i defaultCell)
          = some v := by
  obtain ⟨l, hl, hkv⟩ := List.mem_flatten.mp h
  obtain ⟨row, hrow, rfl⟩ := List.mem_map.mp hl
  obtain ⟨i, hlt, hk, hcd⟩ := collectCells_mem_inv eng numFw row.name _ 0 k v hkv
  rw [Nat.zero_add] at hk hcd
  exact ⟨row, hrow, i, hlt, hk, hcd⟩

theorem collectDescs_mem_of (eng : Engine) (numFw : Nat) (data : List Row)
    {row : Row} (hrow : row ∈ data) {i : Nat}
    (hlt : i < row.framework_data.length) {v : Str}
    (hcd : cellDesc eng numFw row.name i (row.framework_data.getD i defaultCell)
      = some v) :
    (descKey row.name i, v) ∈ collectDescs eng numFw data := by
  apply List.mem_flatten.mpr
  refine ⟨collectCells eng numFw row.name row.framework_data 0,
    List.mem_map.mpr ⟨row, hrow, rfl⟩, ?_⟩
  have := collectCells_mem_of eng numFw row.name row.framework_data 0 i hlt v
    (by rwa [Nat.zero_add])
  rwa [Nat.zero_add] at this

theorem dictOf_eq_none {l : List (Str × Str)} {k : Str}
    (h : ∀ p ∈ l, p.1 ≠ k) : dictOf l k = none := by
  unfold dictOf
  rw [List.find?_eq_none.mpr]
  · rfl
  · intro p hp
    simp only [beq_iff_eq]
    exact h p (List.mem_reverse.mp hp)

theorem dictOf_eq_some {l : List (Str × Str)} {k v : Str}
    (hmem : (k, v) ∈ l) (huniq : ∀ p ∈ l, p.1 = k → p.2 = v) :
    dictOf l k = some v := by
  unfold dictOf
  have hsome : (l.reverse.find? (fun p => p.1 == k)).isSome := by
    rw [List.find?_isSome]
    exact ⟨(k, v), List.mem_reverse.mpr hmem, by simp⟩
  obtain ⟨p, hp⟩ := Option.isSome_iff_exists.mp hsome
  rw [hp]
  have hpk : p.1 = k := by simpa using List.find?_some hp
  have hpl : p ∈ l := List.mem_reverse.mp (List.mem_of_find?_eq_some hp)
  show some p.2 = some v
  rw [huniq p hpl hpk]

theorem dictOf_collect_at (eng : Engine) (numFw : Nat) (data : List Row)
    (hnames : (data.map Row.name).Nodup) :
    ∀ row ∈ data, ∀ i, i < row.framework_data.length →
      dictOf (collectDescs eng numFw data) (descKey row.name i)
        = cellDesc eng numFw row.name i (row.framework_data.getD i defaultCell) := by
  intro row hrow i hlt
  have hinj : ∀ r1 ∈ data, ∀ r2 ∈ data, r1.name = r2.name → r1 = r2 :=
    fun r1 h1 r2 h2 he => List.inj_on_of_nodup_map hnames h1 h2 he
  cases hc : cellDesc eng numFw row.name i (row.framework_data.getD i defaultCell) with
  | some v =>
    apply dictOf_eq_some (collectDescs_mem_of eng numFw data hrow hlt hc)
    intro p hp hpk
    obtain ⟨row2, hrow2, j, hjlt, hk2, hcd2⟩ :=
      collectDescs_mem_inv eng numFw data hp
    rw [hpk] at hk2
    obtain ⟨hnm, hij⟩ := descKey_inj hk2
    have hrr : row = row2 := hinj row hrow row2 hrow2 hnm
    rw [← hrr, ← hij] at hcd2
    rw [hc] at hcd2
    exact (Option.some_injective _ hcd2).symm
  | none =>
    apply dictOf_eq_none
    intro p hp hpk
    obtain ⟨row2, hrow2, j, hjlt, hk2, hcd2⟩ :=
      collectDescs_mem_inv eng numFw data hp
    rw [hpk] at hk2
    obtain ⟨hnm, hij⟩ := descKey_inj hk2
    have hrr : row = row2 := hinj row hrow row2 hrow2 hnm
    rw [← hrr, ← hij, hc] at hcd2
    cases hcd2

theorem mergeCells_getD (m : Str → Option Str) (nm : Str) :
    ∀ (cells : List Cell) (i0 k : Nat), k < cells.length →
      (mergeCells m nm cells i0).getD k defaultCell
        = mergeOne (m (descKey nm (i0 + k))) (cells.getD k defaultCell) := by
  intro cells
  induction cells with
  | nil => intro i0 k h; simp at h
  | cons cell rest ih =>
    intro i0 k hlt
    cases k with
    | zero =>
      rw [Nat.add_zero]
      rfl
    | succ j =>
      show (mergeCells m nm rest (i0 + 1)).getD j defaultCell = _
      rw [ih (i0 + 1) j (by simpa using hlt)]
      have harith : i0 + 1 + j = i0 + (j + 1) := by omega
      rw [harith]
      rfl

/-- C5: when a provider is available, the run always completes with
`enhanced: true`, the returned rows are exactly the input rows merged with
the `enhanced_descriptions` dict, and for each cell the outcome is decided
solely by that cell's own rewrite call (`cellDesc`): a successful nonempty
call attaches `llm_description` and `has_llm_enhancement: true`, any
failure (exception, empty result, absent criterion, index out of range)
leaves the cell's base fields unchanged with `has_llm_enhancement: false` —
one cell's failure never aborts the run or affects another cell. -/
theorem C5_percell_isolation (eng : Engine) (data : List Row) (numFw : Nat)
    (hp : ¬ eng.provider = noneStr)
    (hnames : (data.map Row.name).Nodup) :
    (enhance_comparison_with_llm (Except.ok eng) data numFw).enhanced = true
    ∧ (enhance_comparison_with_llm (Except.ok eng) data numFw).comparison_data
        = data.map (mergeRow (dictOf (collectDescs eng numFw data)))
    ∧ (∀ row ∈ data, ∀ i, i < row.framework_data.length →
        ∀ cell mcell, cell = row.framework_data.getD i defaultCell →
          mcell = (mergeRow (dictOf (collectDescs eng numFw data))
            row).framework_data.getD i defaultCell →
          (mcell.has_criterion = cell.has_criterion
            ∧ mcell.description = cell.description
            ∧ mcell.category = cell.category
            ∧ mcell.definitions = cell.definitions)
          ∧ (∀ d, cellDesc eng numFw row.name i cell = some d →
              mcell.llm_description = some d
              ∧ mcell.has_llm_enhancement = some true)
          ∧ (cellDesc eng numFw row.name i cell = none →
              mcell.llm_description = cell.llm_description
              ∧ mcell.has_llm_enhancement = some false)) := by
  have henh : enhance_comparison_with_llm (Except.ok eng) data numFw
      = { enhanced := true,
          comparison_data :=
            data.map (mergeRow (dictOf (collectDescs eng numFw data))),
          semantic_similarities :=
            match eng.findSims data with
            | Except.ok s => s
            | Except.error _ => [],
          summaries := (summariesFold eng (criteriaToSummarize data)
            emptyMap emptyMap).1,
          insights := uniqueFold eng (uniqueTargets data)
            (summariesFold eng (criteriaToSummarize data) emptyMap emptyMap).2,
          overall_insights :=
            match eng.overallInsights data with
            | Except.ok s => if s = [] then none else some s
            | Except.error _ => none,
          groups :=
            match eng.groupCriteria data with
            | Except.ok g => g
            | Except.error _ => [],
          provider := some eng.provider,
          error := none } := by
    simp only [enhance_comparison_with_llm]
    rw [if_neg hp]
  refine ⟨by rw [henh], by rw [henh], ?_⟩
  intro row hrow i hlt cell mcell hcell hmcell
  have hmerge : mcell = mergeOne
      (dictOf (collectDescs eng numFw data) (descKey row.name i)) cell := by
    rw [hmcell, hcell]
    show (mergeCells (dictOf (collectDescs eng numFw data)) row.name
      row.framework_data 0).getD i defaultCell = _
    rw [mergeCells_getD _ _ _ 0 i hlt, Nat.zero_add]
  have hdm : dictOf (collectDescs eng numFw data) (descKey row.name i)
      = cellDesc eng numFw row.name i cell := by
    rw [hcell]
    exact dictOf_collect_at eng numFw data hnames row hrow i hlt
  rw [hdm] at hmerge
  refine ⟨?_, ?_, ?_⟩
  · cases hc : cellDesc eng numFw row.name i cell <;>
      rw [hc] at hmerge <;> rw [hmerge] <;> exact ⟨rfl, rfl, rfl, rfl⟩
  · intro d hd
    rw [hd] at hmerge
    rw [hmerge]
    exact ⟨rfl, rfl⟩
  · intro hd
    rw [hd] at hmerge
    rw [hmerge]
    exact ⟨rfl, rfl⟩

theorem C5_percell_isolation_witness :
    (enhance_comparison_with_llm (Except.ok testEngine) testData 2).enhanced
      = true :=
  (C5_percell_isolation testEngine testData 2 (by decide) (by decide)).1

theorem enhance_ok_spec (eng : Engine) (data : List Row) (numFw : Nat)
    (hp : ¬ eng.provider = noneStr) :
    enhance_comparison_with_llm (Except.ok eng) data numFw
      = { enhanced := true,
          comparison_data :=
            data.map (mergeRow (dictOf (collectDescs eng numFw data))),
          semantic_similarities :=
            match eng.findSims data with
            | Except.ok s => s
            | Except.error _ => [],
          summaries := (summariesFold eng (criteriaToSummarize data)
            emptyMap emptyMap).1,
          insights := uniqueFold eng (uniqueTargets data)
            (summariesFold eng (criteriaToSummarize data) emptyMap emptyMap).2,
          overall_insights :=
            match eng.overallInsights data with
            | Except.ok s => if s = [] then none else some s
            | Except.error _ => none,
          groups :=
            match eng.groupCriteria data with
            | Except.ok g => g
            | Except.error _ => [],
          provider := some eng.provider,
          error := none } := by
  simp only [enhance_comparison_with_llm]
  rw [if_neg hp]

theorem updateMap_isSome {m : Str → Option Str} {k v : Str} {q : Str}
    (h : (updateMap m k v q).isSome) : (m q).isSome ∨ q = k := by
  unfold updateMap at h
  by_cases hq : q = k
  · right; exact hq
  · left
    rw [if_neg hq] at h
    exact h

theorem addSummaryRow_fst_domain (eng : Engine) (r : Row)
    (ms mi : Str → Option Str) (nm : Str)
    (h : ((addSummaryRow eng r ms mi).1 nm).isSome) :
    (ms nm).isSome ∨ nm = r.name := by
  unfold addSummaryRow at h
  cases hs : eng.genSummary r.name r.framework_data with
  | error e =>
    rw [hs] at h
    left
    exact h
  | ok s =>
    rw [hs] at h
    dsimp only at h
    cases hi : eng.genInsightMulti r.name r.framework_data with
    | error e =>
      rw [hi] at h
      dsimp only at h
      by_cases hse : s = []
      · rw [if_pos hse] at h
        left
        exact h
      · rw [if_neg hse] at h
        exact (updateMap_isSome h).imp_right id
    | ok ins =>
      rw [hi] at h
      dsimp only at h
      by_cases hse : s = []
      · rw [if_pos hse] at h
        left
        exact h
      · rw [if_neg hse] at h
        exact (updateMap_isSome h).imp_right id

theorem addSummaryRow_snd_domain (eng : Engine) (r : Row)
    (ms mi : Str → Option Str) (nm : Str)
    (h : ((addSummaryRow eng r ms mi).2 nm).isSome) :
    (mi nm).isSome ∨ nm = r.name := by
  unfold addSummaryRow at h
  cases hs : eng.genSummary r.name r.framework_data with
  | error e =>
    rw [hs] at h
    left
    exact h
  | ok s =>
    rw [hs] at h
    dsimp only at h
    cases hi : eng.genInsightMulti r.name r.framework_data with
    | error e =>
      rw [hi] at h
      dsimp only at h
      left
      exact h
    | ok ins =>
      rw [hi] at h
      dsimp only at h
      by_cases hie : ins = []
      · rw [if_pos hie] at h
        left
        exact h
      · rw [if_neg hie] at h
        exact (updateMap_isSome h).imp_right id

theorem summariesFold_fst_domain (eng : Engine) :
    ∀ (rows : List Row) (ms mi : Str → Option Str) (nm : Str),
      (((summariesFold eng rows ms mi).1) nm).isSome →
      (ms nm).isSome ∨ nm ∈ rows.map Row.name := by
  intro rows
  induction rows with
  | nil => intro ms mi nm h; left; exact h
  | cons r rs ih =>
    intro ms mi nm h
    unfold summariesFold at h
    rcases ih _ _ nm h with hms | hmem
    · rcases addSummaryRow_fst_domain eng r ms mi nm hms with hms2 | heq
      · left; exact hms2
      · right; rw [heq]; exact List.mem_map.mpr ⟨r, List.mem_cons_self _ _, rfl⟩
    · right
      rw [List.map_cons]
      exact List.mem_cons_of_mem _ hmem

theorem summariesFold_snd_domain (eng : Engine) :
    ∀ (rows : List Row) (ms mi : Str → Option Str) (nm : Str),
      (((summariesFold eng rows ms mi).2) nm).isSome →
      (mi nm).isSome ∨ nm ∈ rows.map Row.name := by
  intro rows
  induction rows with
  | nil => intro ms mi nm h; left; exact h
  | cons r rs ih =>
    intro ms mi nm h
    unfold summariesFold at h
    rcases ih _ _ nm h with hmi | hmem
    · rcases addSummaryRow_snd_domain eng r ms mi nm hmi with hmi2 | heq
      · left; exact hmi2
      · right; rw [heq]; exact List.mem_map.mpr ⟨r, List.mem_cons_self _ _, rfl⟩
    · right
      rw [List.map_cons]
      exact List.mem_cons_of_mem _ hmem

theorem addUniqueRow_domain (eng : Engine) (r : Row) (mi : Str → Option Str)
    (nm : Str) (h : ((addUniqueRow eng r mi) nm).isSome) :
    (mi nm).isSome ∨ nm = r.name := by
  unfold addUniqueRow at h
  cases hi : eng.genInsightUnique r.name r.framework_data with
  | error e =>
    rw [hi] at h
    left
    exact h
  | ok ins =>
    rw [hi] at h
    dsimp only at h
    by_cases hie : ins = []
    · rw [if_pos hie] at h
      left
      exact h
    · rw [if_neg hie] at h
      exact (updateMap_isSome h).imp_right id

theorem uniqueFold_domain (eng : Engine) :
    ∀ (rows : List Row) (mi : Str → Option Str) (nm : Str),
      ((uniqueFold eng rows mi) nm).isSome →
      (mi nm).isSome ∨ nm ∈ rows.map Row.name := by
  intro rows
  induction rows with
  | nil => intro mi nm h; left; exact h
  | cons r rs ih =>
    intro mi nm h
    unfold uniqueFold at h
    rcases ih _ nm h with hmi | hmem
    · rcases addUniqueRow_domain eng r mi nm hmi with hmi2 | heq
      · left; exact hmi2
      · right; rw [heq]; exact List.mem_map.mpr ⟨r, List.mem_cons_self _ _, rfl⟩
    · right
      rw [List.map_cons]
      exact List.mem_cons_of_mem _ hmem

/-- C9: insight generation for criteria present in exactly one framework
processes at most the first 10 such rows in matrix order (`unique_criteria`
is a prefix-limited slice of the row-ordered filter); every processed row
is indeed present in exactly one framework; a summary can only exist for a
criterion present in ≥ 2 frameworks; and an insight can only exist for a
≥ 2-framework criterion or one of the first 10 unique criteria. -/
theorem C9_insight_caps (eng : Engine) (data : List Row) (numFw : Nat)
    (hp : ¬ eng.provider = noneStr) :
    (uniqueTargets data).length ≤ 10
    ∧ uniqueCriteria data = uniqueTargets data ++ (uniqueCriteria data).drop 10
    ∧ (∀ r ∈ uniqueTargets data, presentCountRow r = 1)
    ∧ (∀ nm,
        ((enhance_comparison_with_llm (Except.ok eng) data numFw).summaries
          nm).isSome →
        ∃ r ∈ data, r.name = nm ∧ 2 ≤ presentCountRow r)
    ∧ (∀ nm,
        ((enhance_comparison_with_llm (Except.ok eng) data numFw).insights
          nm).isSome →
        (∃ r ∈ data, r.name = nm ∧ 2 ≤ presentCountRow r)
        ∨ (∃ r ∈ uniqueTargets data, r.name = nm)) := by
  have hsum : ∀ nm, nm ∈ (criteriaToSummarize data).map Row.name →
      ∃ r ∈ data, r.name = nm ∧ 2 ≤ presentCountRow r := by
    intro nm hmem
    obtain ⟨r, hr, rfl⟩ := List.mem_map.mp hmem
    obtain ⟨hrd, hpred⟩ := List.mem_filter.mp hr
    exact ⟨r, hrd, rfl, by simpa using hpred⟩
  refine ⟨?_, (List.take_append_drop 10 (uniqueCriteria data)).symm, ?_, ?_, ?_⟩
  · unfold uniqueTargets
    rw [List.length_take]
    omega
  · intro r hr
    have hrf : r ∈ uniqueCriteria data := List.take_subset _ _ hr
    have := (List.mem_filter.mp hrf).2
    simpa using this
  · intro nm h
    rw [enhance_ok_spec eng data numFw hp] at h
    rcases summariesFold_fst_domain eng _ _ _ nm h with hemp | hmem
    · simp [emptyMap] at hemp
    · exact hsum nm hmem
  · intro nm h
    rw [enhance_ok_spec eng data numFw hp] at h
    rcases uniqueFold_domain eng _ _ nm h with hsnd | hmem
    · rcases summariesFold_snd_domain eng _ _ _ nm hsnd with hemp | hmem2
      · simp [emptyMap] at hemp
      · left; exact hsum nm hmem2
    · right
      obtain ⟨r, hr, rfl⟩ := List.mem_map.mp hmem
      exact ⟨r, hr, rfl⟩

theorem C9_insight_caps_witness :
    (uniqueTargets testData).length ≤ 10 :=
  (C9_insight_caps testEngine testData 2 (by decide)).1
